import Mathlib

/-
Verification of the statement-assembly and argument-binding engine of the
sqlf package (file commands.go). The Go code is shallowly embedded: Go
pointers to TableInfo values are modelled as indices into an explicit list
of tables (a heap), pointer identity becomes index equality, and every
stateful operation is written in explicit state-passing style. External
collaborators (the sqlx execution interfaces, the reflectx field helpers)
are modelled as function-typed parameters and structural value operations.
Types and operations of the repository that live outside commands.go
(TableInfo, columnInfo, the directive types and their clone, filtered,
setPosition and rendering operations) are modelled from the spec; each such
definition carries a doc comment saying so.
-/

namespace Sqlf

/-- Modelled from the spec: the clause tag identifying which part of a
statement a directive belongs to (insert-into, update-table, input
columns, output columns). The source file commands.go mentions
clauseInsertInto, clauseUpdateTable, clauseSelectColumns and the
isInput predicate; the clause type itself lives outside src. -/
inductive Clause
  | insertInto
  | insertColumns
  | insertValues
  | updateTable
  | updateSet
  | updateWhere
  | selectColumns
  | selectWhere
deriving DecidableEq, Repr, Inhabited

/-- Modelled from the spec: input clauses are those whose columns become
bound arguments of the statement. -/
def Clause.isInput : Clause → Bool
  | .insertValues => true
  | .updateSet => true
  | .updateWhere => true
  | .selectWhere => true
  | _ => false

/-- Modelled from the spec: one struct field mapped to one SQL column,
with field access path, column name, optional alias, auto-increment flag
and a mutable 1-based placeholder position (0 meaning unassigned). -/
structure columnInfo where
  fieldName : String
  columnName : String
  columnAlias : Option String
  autoIncrement : Bool
  fieldPath : List Nat
  position : Nat
deriving DecidableEq, Repr, Inhabited

/-- Modelled from the spec: setPosition mutates the placeholder position
of a column descriptor. -/
def setPosition (ci : columnInfo) (n : Nat) : columnInfo :=
  { ci with position := n }

/-- A column descriptor with the position erased, used to state that
position assignment mutates nothing but the position field. -/
def erasePos (ci : columnInfo) : columnInfo :=
  { ci with position := 0 }

/-- Modelled from the spec: one row struct type with its ordered column
descriptors. -/
structure TableInfo where
  tableName : String
  rowType : String
  columns : List columnInfo
deriving DecidableEq, Repr, Inhabited

/-- Modelled from the spec: TableInfo.clone takes a deep copy; on pure
values the copy has the same content, freshness is captured by the new
heap index at which the copy is stored. -/
def TableInfo.clone (ti : TableInfo) : TableInfo := ti

/-- The pointer store: a Go pointer to a TableInfo is an index into this
list. -/
abbrev Heap := List TableInfo

def tableAt (heap : Heap) (t : Nat) : TableInfo :=
  heap.getD t default

def colAt (heap : Heap) (t j : Nat) : columnInfo :=
  (tableAt heap t).columns.getD j default

def colPos (heap : Heap) (t j : Nat) : Nat :=
  (colAt heap t j).position

def colLen (heap : Heap) (t : Nat) : Nat :=
  (tableAt heap t).columns.length

/-- A Go value reachable from a row struct. -/
inductive GoVal
  | intV (n : Int)
  | strV (s : String)
  | structV (structName : String) (fieldVals : List GoVal)
  | sliceV (elems : List GoVal)

instance : Inhabited GoVal := ⟨.intV 0⟩

/-- The dynamic type name of a Go value, used for the nominal row type
check of execRowCommand.Args. -/
def typeNameOf : GoVal → String
  | .intV _ => "int"
  | .strV _ => "string"
  | .structV n _ => n
  | .sliceV _ => "slice"

/-- A row argument as passed through interface{}: either a struct value
or a chain of pointers to one. -/
inductive RowArg
  | val (v : GoVal)
  | ptr (p : RowArg)

instance : Inhabited RowArg := ⟨.val default⟩

/-- The deref loop of execRowCommand.Args: follow pointers until a
non-pointer value is reached. -/
def derefAll : RowArg → GoVal
  | .val v => v
  | .ptr p => derefAll p

/-- reflect.Value.CanSet on a field reached from the row argument: a
field is settable exactly when the row was passed through a pointer. -/
def canSet : RowArg → Bool
  | .val _ => false
  | .ptr _ => true

/-- reflect.ValueOf(row).Type().Name() as used in the cannot-set error
message: the struct name for a plain value, empty for a pointer type. -/
def rowTypeName : RowArg → String
  | .val v => typeNameOf v
  | .ptr _ => ""

/-- reflectx.FieldByIndexesReadOnly: walk the field path, yielding the
zero value when the path leaves the value. -/
def fieldRead : GoVal → List Nat → GoVal
  | v, [] => v
  | .structV _ fs, i :: rest => fieldRead (fs.getD i default) rest
  | _, _ :: _ => default

/-- Functional update of a field along a path (reflect field.SetInt). -/
def fieldWrite : GoVal → List Nat → GoVal → GoVal
  | _, [], w => w
  | .structV n fs, i :: rest, w => .structV n (fs.set i (fieldWrite (fs.getD i default) rest w))
  | v, _ :: _, _ => v

/-- Write through the pointer chain of a row argument. -/
def rowSetField : RowArg → List Nat → GoVal → RowArg
  | .val v, path, w => .val (fieldWrite v path w)
  | .ptr p, path, w => .ptr (rowSetField p path w)

/-- A format argument of a builder: the three directive types of the
package, or a plain value rendered verbatim. Directive table references
are heap indices. The Placeholder directive carries its own mutable
position (modelled from the spec); its clause tag is irrelevant to the
claims and omitted. -/
inductive Arg
  | tableName (clause : Clause) (table : Nat)
  | columnList (clause : Clause) (table : Nat) (cols : List Nat)
  | placeholder (table : Nat) (colName : String) (position : Nat)
  | value (s : String)
deriving DecidableEq, Repr, Inhabited

/-- The table reference carried by an argument, if it is a directive. -/
def argTable : Arg → Option Nat
  | .tableName _ t => some t
  | .columnList _ t _ => some t
  | .placeholder t _ _ => some t
  | .value _ => none

/-- Replace the table reference of a directive (the clone operation of
each directive type re-points it at a cloned table). -/
def retable (a : Arg) (t : Nat) : Arg :=
  match a with
  | .tableName c _ => .tableName c t
  | .columnList c _ cols => .columnList c t cols
  | .placeholder _ n p => .placeholder t n p
  | .value s => .value s

/-- The position stored in a placeholder argument (0 for other args). -/
def argPos : Arg → Nat
  | .placeholder _ _ p => p
  | _ => 0

/-- An item of a printf format string: a literal or a verb consuming the
next argument. -/
inductive FmtItem
  | lit (s : String)
  | verb
deriving DecidableEq, Repr

/-- fmt.Sprintf: substitute the rendered arguments in order. -/
def sprintf : List FmtItem → List String → String
  | [], _ => ""
  | .lit s :: rest, xs => s ++ sprintf rest xs
  | .verb :: rest, [] => "%!s(MISSING)" ++ sprintf rest []
  | .verb :: rest, x :: xs => x ++ sprintf rest xs

/-- Modelled from the spec: how one column renders inside a ColumnList,
by clause: column names for the insert column list, alias-aware names for
select output, and numbered placeholder tokens for input clauses. -/
def renderCol (c : Clause) (ci : columnInfo) : String :=
  match c with
  | .insertColumns => ci.columnName
  | .selectColumns =>
      match ci.columnAlias with
      | some a => ci.columnName ++ " as " ++ a
      | none => ci.columnName
  | .insertValues => "?" ++ toString ci.position
  | .updateSet => ci.columnName ++ "=?" ++ toString ci.position
  | .updateWhere => ci.columnName ++ "=?" ++ toString ci.position
  | .selectWhere => ci.columnName ++ "=?" ++ toString ci.position
  | .insertInto => ci.columnName
  | .updateTable => ci.columnName

/-- Modelled from the spec: each directive renders itself as a SQL
fragment during formatting; a table name, a comma-joined column list, or
a single numbered placeholder token. -/
def render (heap : Heap) : Arg → String
  | .tableName _ t => (tableAt heap t).tableName
  | .columnList c t cols =>
      String.intercalate ", " (cols.map fun j => renderCol c (colAt heap t j))
  | .placeholder _ _ pos => "?" ++ toString pos
  | .value s => s

/-- The state threaded through cloneArgs: the identity-keyed map from
original table pointers to their clones, and the heap holding the
allocated clones. -/
structure CloneSt where
  cloneMap : List (Nat × Nat)
  heap : Heap
deriving Repr

/-- The tableClone closure of cloneArgs: return the memoized clone of a
table, allocating a fresh one on first encounter. -/
def tableClone (st : CloneSt) (t : Nat) : Nat × CloneSt :=
  match st.cloneMap.lookup t with
  | some t2 => (t2, st)
  | none =>
      let t2 := st.heap.length
      (t2, ⟨(t, t2) :: st.cloneMap, st.heap ++ [(tableAt st.heap t).clone]⟩)

/-- One iteration of the cloneArgs loop: directives are replaced by
clones re-pointed at the cloned table, everything else passes through. -/
def cloneArg (st : CloneSt) (a : Arg) : Arg × CloneSt :=
  match a with
  | .tableName c t =>
      let p := tableClone st t
      (.tableName c p.1, p.2)
  | .columnList c t cols =>
      let p := tableClone st t
      (.columnList c p.1 cols, p.2)
  | .placeholder t n pos =>
      let p := tableClone st t
      (.placeholder p.1 n pos, p.2)
  | .value s => (.value s, st)

/-- The loop of cloneArgs over the argument list. -/
def cloneArgsGo (st : CloneSt) : List Arg → List Arg × CloneSt
  | [] => ([], st)
  | a :: rest =>
      let p := cloneArg st a
      let q := cloneArgsGo p.2 rest
      (p.1 :: q.1, q.2)

/-- cloneArgs of commands.go: deep copy of all directive arguments with
identity-keyed deduplication of their tables. Returns the new argument
list and the heap extended with the clones. -/
def cloneArgs (args : List Arg) (heap : Heap) : List Arg × Heap :=
  let p := cloneArgsGo ⟨[], heap⟩ args
  (p.1, p.2.heap)

/-- The distinct original tables referenced by directives, in first
occurrence order relative to a set of already known tables. -/
def newTables (args : List Arg) (known : List Nat) : List Nat :=
  match args with
  | [] => []
  | a :: rest =>
      match argTable a with
      | none => newTables rest known
      | some t =>
          if t ∈ known then newTables rest known
          else t :: newTables rest (t :: known)

/-- The distinct tables cloned by a cloneArgs call, in clone order. -/
def cloneTables (args : List Arg) : List Nat :=
  newTables args []

/-- Index of a table inside a first-occurrence list. -/
def idxIn (t : Nat) : List Nat → Nat
  | [] => 0
  | u :: rest => if u = t then 0 else idxIn t rest + 1

/-- All table references occurring in an argument list. -/
def usedTables (args : List Arg) : List Nat :=
  args.filterMap argTable

/-- Rename every directive table reference by a function (used to state
that two argument lists carry equivalent directive values). -/
def mapArgTable (f : Nat → Nat) (a : Arg) : Arg :=
  match argTable a with
  | none => a
  | some t => retable a (f t)

/-- The clone of an argument expressed in closed form: directives are
re-pointed at base + index of their table in the clone order. -/
def refArg (base : Nat) (news : List Nat) (a : Arg) : Arg :=
  match argTable a with
  | none => a
  | some t => retable a (base + idxIn t news)

/-- The clone reference of a table mid-run: the memoized clone if the
table was seen, else the next free slot for its first-occurrence rank. -/
def cloneRefExpr (st : CloneSt) (news : List Nat) (t : Nat) : Nat :=
  match st.cloneMap.lookup t with
  | some c => c
  | none => st.heap.length + idxIn t news

/-- The heap index at which cloneArgs places the clone of table t. -/
def cloneRefOf (args : List Arg) (heap : Heap) (t : Nat) : Nat :=
  heap.length + idxIn t (cloneTables args)

/-- ColumnList.filtered, modelled from the spec: the subset of column
references the list names, paired with the table reference. -/
def filtered (t : Nat) (cols : List Nat) : List (Nat × Nat) :=
  cols.map fun j => (t, j)

/-- One step of the input-column accumulation loop. -/
def inputStep (acc : List (Nat × Nat)) (a : Arg) : List (Nat × Nat) :=
  match a with
  | .columnList c t cols => if c.isInput then acc ++ filtered t cols else acc
  | _ => acc

/-- The input-column accumulation loop shared by InsertRowf, UpdateRowf
and Queryf: ColumnList directives with an input clause contribute their
filtered columns in order. -/
def collectInputs (args : List Arg) : List (Nat × Nat) :=
  args.foldl
    (fun acc a =>
      match a with
      | .columnList c t cols => if c.isInput then acc ++ filtered t cols else acc
      | _ => acc)
    []

/-- The table selection loop of InsertRowf and UpdateRowf: the last
TableName directive with the given clause wins. -/
def selectTable (clause : Clause) (args : List Arg) : Option Nat :=
  args.foldl
    (fun acc a =>
      match a with
      | .tableName c t => if c = clause then some t else acc
      | _ => acc)
    none

/-- The output-column accumulation loop of Queryf. -/
def collectColumns (args : List Arg) : List (Nat × Nat) :=
  args.foldl
    (fun acc a =>
      match a with
      | .columnList c t cols =>
          if c = .selectColumns then acc ++ filtered t cols else acc
      | _ => acc)
    []

/-- Set the position of one column in the heap (ci.setPosition through a
pointer into a cloned table). -/
def heapSetPosition (heap : Heap) (t j n : Nat) : Heap :=
  heap.set t
    { tableAt heap t with
      columns := (tableAt heap t).columns.set j (setPosition (colAt heap t j) n) }

/-- The position assignment loop of the builders: input i receives
position start + i. -/
def applyPositions (heap : Heap) (inputs : List (Nat × Nat)) (start : Nat) : Heap :=
  match inputs with
  | [] => heap
  | (t, j) :: rest => applyPositions (heapSetPosition heap t j start) rest (start + 1)

/-- The execution result of the database driver: sql.Result with its two
fallible accessors. -/
structure ExecResult where
  lastInsertId : Except String Int
  rowsAffected : Except String Int

instance : Inhabited ExecResult := ⟨⟨.error "", .error ""⟩⟩

/-- The sqlx.Execer interface: execute SQL text with positional
arguments, returning a result or an error. -/
abbrev Execer := String → List GoVal → Except String ExecResult

/-- The execRowCommand of commands.go: SQL text, the resolved table (nil
modelled as none) and the input column pointers. The heap field is the
model artifact holding the cloned metadata the references point into. -/
structure execRowCommand where
  command : String
  table : Option Nat
  inputs : List (Nat × Nat)
  heap : Heap

/-- execRowCommand.Command. -/
def execRowCommand.Command (cmd : execRowCommand) : String :=
  cmd.command

/-- execRowCommand.Args: check the table was resolved, dereference the
row to a non-pointer value, check its nominal type against the declared
row type, then read one argument per input column along its field path.
A pure read: neither the row nor the command is modified. -/
def execRowCommand.Args (cmd : execRowCommand) (row : RowArg) : Except String (List GoVal) :=
  match cmd.table with
  | none => .error "table not specified"
  | some t =>
      let rowVal := derefAll row
      let ti := tableAt cmd.heap t
      if typeNameOf rowVal = ti.rowType then
        .ok (cmd.inputs.map fun tj => fieldRead rowVal (colAt cmd.heap tj.1 tj.2).fieldPath)
      else
        .error ("Args: expected type " ++ ti.rowType ++ " or pointer")

/-- execRowCommand.doExec: extract the arguments and execute. -/
def execRowCommand.doExec (cmd : execRowCommand) (db : Execer) (row : RowArg) :
    Except String ExecResult :=
  match cmd.Args row with
  | .error e => .error e
  | .ok as => db cmd.command as

/-- The insert and update row commands embed execRowCommand. -/
abbrev insertRowCommand := execRowCommand

abbrev updateRowCommand := execRowCommand

/-- The observable outcome of insertRowCommand.Exec: the returned error
value, whether a nil pointer dereference panicked, which call reached
the execution interface (none when it was never called), and the row
after the call (so that generated key write-back is observable). -/
structure InsertExecOut where
  res : Except String Unit
  panicked : Bool
  dbCall : Option (String × List GoVal)
  rowAfter : RowArg

/-- The first auto-increment column of a table (the find loop at the top
of insertRowCommand.Exec). -/
def findAutoInc (cols : List columnInfo) : Option Nat :=
  cols.findIdx? fun ci => ci.autoIncrement

/-- The tail of insertRowCommand.Exec: doExec (inlined so the call to
the execution interface is recorded), then, when a write-back target
field was computed, read the generated key and write it back; a failed
generated key read is swallowed (the Go code returns nil there). -/
def insertRun (cmd : execRowCommand) (db : Execer) (row : RowArg)
    (target : Option (List Nat)) : InsertExecOut :=
  match cmd.Args row with
  | .error e => ⟨.error e, false, none, row⟩
  | .ok as =>
      match db cmd.command as with
      | .error e => ⟨.error e, false, some (cmd.command, as), row⟩
      | .ok result =>
          match target with
          | none => ⟨.ok (), false, some (cmd.command, as), row⟩
          | some path =>
              match result.lastInsertId with
              | .error _ => ⟨.ok (), false, some (cmd.command, as), row⟩
              | .ok n => ⟨.ok (), false, some (cmd.command, as), rowSetField row path (.intV n)⟩

/-- insertRowCommand.Exec: find the auto-increment column; when it is
not among the input columns (pointer comparison against the inputs),
resolve the struct field and fail before executing if it cannot be set;
then execute and write the generated key back. A command whose table was
never resolved dereferences a nil pointer (panicked). -/
def insertRowCommand.Exec (cmd : execRowCommand) (db : Execer) (row : RowArg) : InsertExecOut :=
  match cmd.table with
  | none => ⟨.error "", true, none, row⟩
  | some t =>
      let ti := tableAt cmd.heap t
      match findAutoInc ti.columns with
      | none => insertRun cmd db row none
      | some k =>
          if (t, k) ∈ cmd.inputs then
            insertRun cmd db row none
          else if canSet row then
            insertRun cmd db row (some (colAt cmd.heap t k).fieldPath)
          else
            ⟨.error ("Cannot set auto-increment value for type " ++ rowTypeName row),
              false, none, row⟩

/-- updateRowCommand.Exec: execute and return exactly the affected row
count reported by the execution result. -/
def updateRowCommand.Exec (cmd : execRowCommand) (db : Execer) (row : RowArg) :
    Except String Int :=
  match cmd.doExec db row with
  | .error e => .error e
  | .ok result =>
      match result.rowsAffected with
      | .error e => .error e
      | .ok n => .ok n

/-- InsertRowf: clone the arguments, pick the insert-into table and the
input columns, assign placeholder positions 1..N in accumulation order,
and format the SQL text. -/
def InsertRowf (format : List FmtItem) (args : List Arg) (heap : Heap) : insertRowCommand :=
  let p := cloneArgs args heap
  let args2 := p.1
  let heap2 := p.2
  let table := selectTable .insertInto args2
  let inputs := collectInputs args2
  let heap3 := applyPositions heap2 inputs 1
  { command := sprintf format (args2.map (render heap3))
    table := table
    inputs := inputs
    heap := heap3 }

/-- UpdateRowf: same build as InsertRowf with the update-table clause.
Bare Placeholder directives are cloned and rendered but never receive a
position (only ColumnList inputs are accumulated). -/
def UpdateRowf (format : List FmtItem) (args : List Arg) (heap : Heap) : updateRowCommand :=
  let p := cloneArgs args heap
  let args2 := p.1
  let heap2 := p.2
  let table := selectTable .updateTable args2
  let inputs := collectInputs args2
  let heap3 := applyPositions heap2 inputs 1
  { command := sprintf format (args2.map (render heap3))
    table := table
    inputs := inputs
    heap := heap3 }

/-- The execCommand of commands.go: just the SQL text. -/
structure execCommand where
  command : String
deriving DecidableEq, Repr

/-- execCommand.Command. -/
def execCommand.Command (cmd : execCommand) : String :=
  cmd.command

/-- execCommand.Exec: pass the stored SQL text and the caller arguments
to the execution interface unchanged. -/
def execCommand.Exec (cmd : execCommand) (db : Execer) (args : List GoVal) :
    Except String ExecResult :=
  db cmd.command args

/-- An entry of the mixed input list of Execf: a column pointer from an
input ColumnList, or a bare Placeholder identified by its index in the
cloned argument list (its pointer identity). -/
inductive ExecInput
  | col (t j : Nat)
  | ph (argIdx : Nat)
deriving DecidableEq, Repr

/-- The accumulation loop of Execf: input column lists contribute their
filtered columns, bare placeholders contribute themselves, in declared
argument order. -/
def collectExecInputsAux (i : Nat) : List Arg → List ExecInput
  | [] => []
  | a :: rest =>
      match a with
      | .columnList c t cols =>
          (if c.isInput then cols.map fun j => ExecInput.col t j else [])
            ++ collectExecInputsAux (i + 1) rest
      | .placeholder _ _ _ => ExecInput.ph i :: collectExecInputsAux (i + 1) rest
      | _ => collectExecInputsAux (i + 1) rest

def collectExecInputs (args : List Arg) : List ExecInput :=
  collectExecInputsAux 0 args

/-- Placeholder.setPosition, modelled from the spec: store the assigned
position in the placeholder. -/
def phSetPosition (a : Arg) (n : Nat) : Arg :=
  match a with
  | .placeholder t nm _ => .placeholder t nm n
  | other => other

/-- The position assignment loop of Execf: walk the mixed input list,
mutating cloned columns in the heap and placeholders in the cloned
argument list. -/
def applyExecPositions (heap : Heap) (args : List Arg) (inputs : List ExecInput) (start : Nat) :
    Heap × List Arg :=
  match inputs with
  | [] => (heap, args)
  | .col t j :: rest =>
      applyExecPositions (heapSetPosition heap t j start) args rest (start + 1)
  | .ph idx :: rest =>
      applyExecPositions heap (args.set idx (phSetPosition (args.getD idx (.value "")) start))
        rest (start + 1)

/-- The full state computed by Execf; the Go function keeps only the
formatted command, the rest is exposed for the statements about position
assignment. -/
structure execBuildOut where
  cmd : execCommand
  heapOut : Heap
  argsOut : List Arg
  inputs : List ExecInput

/-- Execf with its intermediate state exposed. -/
def ExecfCore (format : List FmtItem) (args : List Arg) (heap : Heap) : execBuildOut :=
  let p := cloneArgs args heap
  let args2 := p.1
  let heap2 := p.2
  let inputs := collectExecInputs args2
  let q := applyExecPositions heap2 args2 inputs 1
  { cmd := { command := sprintf format (q.2.map (render q.1)) }
    heapOut := q.1
    argsOut := q.2
    inputs := inputs }

/-- Execf: clone the arguments, accumulate input columns and bare
placeholders in declared order, assign positions 1..N across both kinds,
and format the SQL text. -/
def Execf (format : List FmtItem) (args : List Arg) (heap : Heap) : execCommand :=
  (ExecfCore format args heap).cmd

/-- Rebase the column references of a mixed Execf input entry. -/
def shiftE (L : Nat) : ExecInput → ExecInput
  | .col t j => .col (L + t) j
  | .ph idx => .ph idx

/-- The SQL text produced by the shared pipeline of InsertRowf,
UpdateRowf and Queryf (their command fields are this expression). -/
def rowCommandText (format : List FmtItem) (args : List Arg) (heap : Heap) : String :=
  sprintf format ((cloneArgs args heap).1.map
    (render (applyPositions (cloneArgs args heap).2
      (collectInputs (cloneArgs args heap).1) 1)))

/-- The SQL text produced by the Execf pipeline. -/
def execCommandText (format : List FmtItem) (args : List Arg) (heap : Heap) : String :=
  sprintf format ((applyExecPositions (cloneArgs args heap).2 (cloneArgs args heap).1
      (collectExecInputs (cloneArgs args heap).1) 1).2.map
    (render (applyExecPositions (cloneArgs args heap).2 (cloneArgs args heap).1
      (collectExecInputs (cloneArgs args heap).1) 1).1))

/-- The field mapper built by getMapper, in executable form: the mapping
each m entry induces, from struct field name to declared alias or column
name (reflectx.NewMapperFunc wraps exactly this function). -/
abbrev Mapper := List (String × String)

/-- The mapping function wrapped by the mapper: the mapped name when the
field is in the output column set, the name itself unchanged otherwise. -/
def mapName (mp : Mapper) (name : String) : String :=
  match mp.lookup name with
  | some s => s
  | none => name

/-- ci.columnAlias when hasColumnAlias, else ci.columnName (the body of
the mapFunc closure of getMapper). -/
def aliasOrName (ci : columnInfo) : String :=
  match ci.columnAlias with
  | some a => a
  | none => ci.columnName

/-- The duplicate detection loop of getMapper: insert each output column
into the field name map, failing on the first duplicate field name. -/
def buildFieldMap (heap : Heap) : List (Nat × Nat) → List (String × columnInfo) →
    Except String (List (String × columnInfo))
  | [], m => .ok m
  | tj :: rest, m =>
      let ci := colAt heap tj.1 tj.2
      match m.lookup ci.fieldName with
      | some _ => .error ("Cannot process query: multiple fields named " ++ ci.fieldName)
      | none => buildFieldMap heap rest (m ++ [(ci.fieldName, ci)])

/-- The mapper value derived from the finished field name map. -/
def mapperOf (m : List (String × columnInfo)) : Mapper :=
  m.map fun p => (p.1, aliasOrName p.2)

/-- The queryCommand of commands.go: SQL text, output columns, input
columns and the lazily computed mapper (nil until first use). The heap
field is the model artifact holding the cloned metadata. -/
structure queryCommand where
  command : String
  columns : List (Nat × Nat)
  inputs : List (Nat × Nat)
  mapper : Option Mapper
  heap : Heap

/-- queryCommand.Command. -/
def queryCommand.Command (cmd : queryCommand) : String :=
  cmd.command

/-- queryCommand.getMapper: when no mapper is cached, run duplicate
detection over the output columns; on success build and cache the
mapper, on failure return the error and cache nothing (the command is
returned unchanged). The command is mutated through a pointer in Go, so
the new command state is returned alongside the result. -/
def queryCommand.getMapper (cmd : queryCommand) : Except String Mapper × queryCommand :=
  match cmd.mapper with
  | some mp => (.ok mp, cmd)
  | none =>
      match buildFieldMap cmd.heap cmd.columns [] with
      | .error e => (.error e, cmd)
      | .ok m =>
          let mp := mapperOf m
          (.ok mp, { cmd with mapper := some mp })

/-- A row handle as returned by the execution interface: the SQL text
and arguments the interface received (so the adapter behavior is
observable) plus the mapper attached by the command. -/
structure Row where
  sqlText : String
  rowArgs : List GoVal
  mapper : Mapper

/-- A rows handle: the raw rows from the execution interface plus the
mapper attached by the command. -/
structure Rows where
  raw : List (List GoVal)
  mapper : Mapper

/-- The sqlx.Queryer interface consumed by query commands: Query returns
raw rows or an error, QueryRowx returns a row handle recording what it
was given. -/
structure Queryer where
  queryFn : String → List GoVal → Except String (List (List GoVal))
  queryRowxFn : String → List GoVal → Row

/-- An outcome that distinguishes a Go panic from a returned value. -/
inductive PanicOr (α : Type)
  | ok (a : α)
  | panicked (msg : String)

/-- queryCommand.Query: build or reuse the mapper (propagating its error
to the caller), execute the stored SQL text with the given arguments and
attach the mapper to the resulting rows. -/
def queryCommand.Query (cmd : queryCommand) (db : Queryer) (args : List GoVal) :
    Except String Rows × queryCommand :=
  match cmd.getMapper with
  | (.error e, cmd2) => (.error e, cmd2)
  | (.ok mp, cmd2) =>
      match db.queryFn cmd2.command args with
      | .error e => (.error e, cmd2)
      | .ok rs => (.ok ⟨rs, mp⟩, cmd2)

/-- queryCommand.QueryRow: build or reuse the mapper; a mapper error is
raised as a panic (the Go code has no error return here and panics with
a TODO comment), otherwise execute the stored SQL text and attach the
mapper to the row handle. -/
def queryCommand.QueryRow (cmd : queryCommand) (db : Queryer) (args : List GoVal) :
    PanicOr Row × queryCommand :=
  match cmd.getMapper with
  | (.error e, cmd2) => (.panicked e, cmd2)
  | (.ok mp, cmd2) =>
      let row := db.queryRowxFn cmd2.command args
      (.ok { row with mapper := mp }, cmd2)

/-- The queryer adapter of commands.go: wraps a command and a database
so that, whatever SQL text the generic scanning helper passes, the
command text of the wrapped command is used. -/
structure queryer where
  cmd : queryCommand
  db : Queryer

/-- queryer.Query: ignore the query string, execute the command text
with the given arguments. -/
def queryer.Query (q : queryer) (query : String) (args : List GoVal) :
    Except String (List (List GoVal)) :=
  q.db.queryFn q.cmd.command args

/-- queryer.Queryx: delegate to queryCommand.Query, which uses the
command text; the query string is ignored. -/
def queryer.Queryx (q : queryer) (query : String) (args : List GoVal) :
    Except String Rows × queryCommand :=
  queryCommand.Query q.cmd q.db args

/-- queryer.QueryRowx: delegate to queryCommand.QueryRow. The Go code
passes the argument slice without expanding it (q.cmd.QueryRow(q.db,
args) instead of args...), so the variadic parameter receives a single
argument holding the whole slice. -/
def queryer.QueryRowx (q : queryer) (query : String) (args : List GoVal) :
    PanicOr Row × queryCommand :=
  queryCommand.QueryRow q.cmd q.db [GoVal.sliceV args]

/-- Modelled from the spec: sqlx.Select is the generic scanning helper;
it runs the Queryx method of the queryer it is given with the literal
query string it received and scans the rows into the destination (the
scanning itself is out of scope). -/
def sqlxSelect (q : queryer) (query : String) (args : List GoVal) :
    Except String Rows × queryCommand :=
  queryer.Queryx q query args

/-- queryCommand.Select: wrap the command and database in the queryer
adapter and hand it to the generic scanning helper with a throwaway
query string. -/
def queryCommand.Select (cmd : queryCommand) (db : Queryer) (args : List GoVal) :
    Except String Rows × queryCommand :=
  sqlxSelect ⟨cmd, db⟩ "unused" args

/-- Queryf: clone the arguments, accumulate input and output columns,
assign placeholder positions 1..N to the inputs in accumulation order,
and format the SQL text. The mapper starts out nil. -/
def Queryf (format : List FmtItem) (args : List Arg) (heap : Heap) : queryCommand :=
  let p := cloneArgs args heap
  let args2 := p.1
  let heap2 := p.2
  let inputs := collectInputs args2
  let columns := collectColumns args2
  let heap3 := applyPositions heap2 inputs 1
  { command := sprintf format (args2.map (render heap3))
    columns := columns
    inputs := inputs
    mapper := none
    heap := heap3 }

/-- The field names of the output columns of a query command, in
declared order. -/
def fieldNamesOf (cmd : queryCommand) : List String :=
  cmd.columns.map fun tj => (colAt cmd.heap tj.1 tj.2).fieldName

/-! Concrete instances used by the witnesses: the users table of the
end-to-end scenarios of the spec, with an auto-increment id and two
plain columns. -/

def idCol : columnInfo := ⟨"ID", "id", none, true, [0], 0⟩

def nameCol : columnInfo := ⟨"Name", "name", none, false, [1], 0⟩

def emailCol : columnInfo := ⟨"Email", "email", none, false, [2], 0⟩

def usersTable : TableInfo := ⟨"users", "User", [idCol, nameCol, emailCol]⟩

def heapU : Heap := [usersTable]

/-- A User row passed by pointer. -/
def rowU : RowArg := .ptr (.val (.structV "User" [.intV 0, .strV "a", .strV "b@x"]))

/-- The same User row passed by value. -/
def rowUVal : RowArg := .val (.structV "User" [.intV 0, .strV "a", .strV "b@x"])

/-- A row argument of the wrong type. -/
def rowInt : RowArg := .val (.intV 7)

/-- A row command whose build found no table. -/
def cmdNoTable : execRowCommand := ⟨"", none, [], []⟩

/-- An insert command over users with inputs name, email (the
auto-increment column is not an input). -/
def cmdIns : execRowCommand :=
  ⟨"insert into users(name, email) values (?1, ?2)", some 0, [(0, 1), (0, 2)], heapU⟩

/-- An insert command that sets the auto-increment column explicitly. -/
def cmdInsWithId : execRowCommand :=
  ⟨"insert into users(id, name, email) values (?1, ?2, ?3)", some 0,
    [(0, 0), (0, 1), (0, 2)], heapU⟩

/-- A driver whose result reports generated key 42 and one affected
row. -/
def dbOK : Execer := fun _ _ => .ok ⟨.ok 42, .ok 1⟩

/-- A driver whose result cannot report a generated key. -/
def dbNoKey : Execer := fun _ _ => .ok ⟨.error "LastInsertId is not supported", .ok 1⟩

/-- A driver whose result reports five affected rows. -/
def dbFive : Execer := fun _ _ => .ok ⟨.ok 42, .ok 5⟩

/-- The update scenario of the spec: set name, bare placeholder
condition on id. -/
def fmtUpd : List FmtItem :=
  [.lit "update ", .verb, .lit " set ", .verb, .lit " where id = ", .verb]

def argsUpd : List Arg :=
  [.tableName .updateTable 0, .columnList .updateSet 0 [1], .placeholder 0 "id" 0]

/-- The insert build scenario of the spec. -/
def fmtIns : List FmtItem :=
  [.lit "insert into ", .verb, .lit "(", .verb, .lit ") values (", .verb, .lit ")"]

def argsIns : List Arg :=
  [.tableName .insertInto 0, .columnList .insertColumns 0 [1, 2],
    .columnList .insertValues 0 [1, 2]]

/-- A table whose first two columns map to the same struct field name. -/
def dupTable : TableInfo :=
  ⟨"users", "User", [⟨"ID", "id", none, false, [0], 0⟩, ⟨"ID", "id2", none, false, [1], 0⟩]⟩

/-- A query command with an ambiguous destination field. -/
def qcDup : queryCommand :=
  ⟨"select id, id2 from users", [(0, 0), (0, 1)], [], none, [dupTable]⟩

/-- A query command with a single unambiguous output column. -/
def qcOK : queryCommand := ⟨"select name from users", [(0, 1)], [], none, heapU⟩

/-- A database that records the SQL text and arguments it receives. -/
def dbRec : Queryer := ⟨fun s _ => .ok [[.strV s]], fun s as => ⟨s, as, []⟩⟩

/-- The queryer adapter over qcOK and the recording database. -/
def qRec : queryer := ⟨qcOK, dbRec⟩

/-- The select scenario of the spec: name aliased to full_name, plain
email. -/
def fullNameCol : columnInfo := ⟨"FullName", "name", some "full_name", false, [1], 0⟩

def selTable : TableInfo := ⟨"users", "User", [idCol, fullNameCol, emailCol]⟩

def qcSel : queryCommand :=
  ⟨"select name as full_name, email from users", [(0, 1), (0, 2)], [], none, [selTable]⟩

/-- A second heap for the determinism witness, holding the users table
at a shifted index. -/
def heap2W : Heap := [dupTable, usersTable]

/-- An update command over users with input name, as built by the
update scenario. -/
def cmdUpdW : execRowCommand :=
  ⟨"update users set name=?1 where id = ?2", some 0, [(0, 1)], heapU⟩

/-- The column entries of a mixed Execf input list. -/
def colsOfE : List ExecInput → List (Nat × Nat) :=
  List.filterMap fun i =>
    match i with
    | .col t j => some (t, j)
    | .ph _ => none

/-- The placeholder entries of a mixed Execf input list. -/
def phsOfE : List ExecInput → List Nat :=
  List.filterMap fun i =>
    match i with
    | .col _ _ => none
    | .ph idx => some idx

/-- Whether an argument is a Placeholder directive. -/
def isPh : Arg → Bool
  | .placeholder _ _ _ => true
  | _ => false

/-- An exec build scenario with one input column and one bare
placeholder. -/
def fmtExec : List FmtItem :=
  [.lit "update users set ", .verb, .lit " where id = ", .verb]

def argsExec : List Arg :=
  [.columnList .updateSet 0 [1], .placeholder 0 "id" 0]

/-! Theorems. -/

theorem insertRun_none_rowAfter (cmd : execRowCommand) (db : Execer) (row : RowArg) :
    (insertRun cmd db row none).rowAfter = row := by
  rcases hA : cmd.Args row with e | as
  · simp [insertRun, hA]
  · rcases hdb : db cmd.command as with e | r <;> simp [insertRun, hA, hdb]

/-- Claim C3: Args dereferences the row to a non-pointer value and then
returns a configuration error when no table was resolved at build time,
a type mismatch error naming the expected type when the dereferenced
value is not of the declared row type, and otherwise exactly one
argument per stored input column in stored order, each read along the
field access path of its column; it never returns a partial list
together with success, and being a pure function it mutates neither the
row nor the command. -/
theorem args_extraction_spec (cmd : execRowCommand) (row : RowArg) :
    (cmd.table = none → cmd.Args row = .error "table not specified") ∧
    (∀ t, cmd.table = some t →
      typeNameOf (derefAll row) ≠ (tableAt cmd.heap t).rowType →
      cmd.Args row = .error ("Args: expected type " ++ (tableAt cmd.heap t).rowType ++ " or pointer")) ∧
    (∀ t, cmd.table = some t →
      typeNameOf (derefAll row) = (tableAt cmd.heap t).rowType →
      cmd.Args row = .ok (cmd.inputs.map fun tj =>
        fieldRead (derefAll row) (colAt cmd.heap tj.1 tj.2).fieldPath)) := by
  refine ⟨fun h => ?_, fun t ht hne => ?_, fun t ht he => ?_⟩
  · simp [execRowCommand.Args, h]
  · simp [execRowCommand.Args, ht, hne]
  · simp [execRowCommand.Args, ht, he]

theorem args_extraction_spec_witness :
    cmdNoTable.Args rowU = .error "table not specified" ∧
    cmdIns.Args rowInt = .error "Args: expected type User or pointer" ∧
    cmdIns.Args rowU = .ok [.strV "a", .strV "b@x"] := by
  refine ⟨(args_extraction_spec cmdNoTable rowU).1 rfl, ?_, ?_⟩
  · have h := (args_extraction_spec cmdIns rowInt).2.1 0 rfl (by decide)
    exact h
  · have h := (args_extraction_spec cmdIns rowU).2.2 0 rfl rfl
    exact h

/-- Claim C1: for an insert command whose table declares an
auto-increment column, Exec writes the generated key of the execution
result into the struct field exactly when the auto-increment column was
not among the input columns: when it is among them the row is never
touched whatever the driver does; when it is not among them and the
statement succeeds, a successfully retrieved key is written along the
field path of the auto-increment column, and a failed key retrieval is
swallowed (Exec returns success and the row is unchanged). -/
theorem insert_generated_key_writeback (cmd : execRowCommand) (db : Execer) (row : RowArg)
    (t k : Nat) (ht : cmd.table = some t)
    (hk : findAutoInc (tableAt cmd.heap t).columns = some k) :
    ((t, k) ∈ cmd.inputs → (insertRowCommand.Exec cmd db row).rowAfter = row) ∧
    ((t, k) ∉ cmd.inputs → canSet row = true →
      (∀ as res n, cmd.Args row = .ok as → db cmd.command as = .ok res →
        res.lastInsertId = .ok n →
        insertRowCommand.Exec cmd db row =
          ⟨.ok (), false, some (cmd.command, as),
            rowSetField row (colAt cmd.heap t k).fieldPath (.intV n)⟩) ∧
      (∀ as res e, cmd.Args row = .ok as → db cmd.command as = .ok res →
        res.lastInsertId = .error e →
        insertRowCommand.Exec cmd db row = ⟨.ok (), false, some (cmd.command, as), row⟩)) := by
  constructor
  · intro hmem
    have h : insertRowCommand.Exec cmd db row = insertRun cmd db row none := by
      simp [insertRowCommand.Exec, ht, hk, hmem]
    rw [h]
    exact insertRun_none_rowAfter cmd db row
  · intro hmem hset
    have h : insertRowCommand.Exec cmd db row =
        insertRun cmd db row (some (colAt cmd.heap t k).fieldPath) := by
      simp [insertRowCommand.Exec, ht, hk, hmem, hset, colAt]
    constructor
    · intro as res n hA hdb hlid
      rw [h]
      simp [insertRun, hA, hdb, hlid]
    · intro as res e hA hdb hlid
      rw [h]
      simp [insertRun, hA, hdb, hlid]

theorem insert_generated_key_writeback_witness :
    insertRowCommand.Exec cmdIns dbOK rowU =
      ⟨.ok (), false, some (cmdIns.command, [.strV "a", .strV "b@x"]),
        .ptr (.val (.structV "User" [.intV 42, .strV "a", .strV "b@x"]))⟩ ∧
    insertRowCommand.Exec cmdIns dbNoKey rowU =
      ⟨.ok (), false, some (cmdIns.command, [.strV "a", .strV "b@x"]), rowU⟩ ∧
    (insertRowCommand.Exec cmdInsWithId dbOK rowUVal).rowAfter = rowUVal := by
  refine ⟨?_, ?_, ?_⟩
  · have h := ((insert_generated_key_writeback cmdIns dbOK rowU 0 0 rfl rfl).2
      (by decide) rfl).1 [.strV "a", .strV "b@x"] ⟨.ok 42, .ok 1⟩ 42 rfl rfl rfl
    exact h
  · have h := ((insert_generated_key_writeback cmdIns dbNoKey rowU 0 0 rfl rfl).2
      (by decide) rfl).2 [.strV "a", .strV "b@x"] ⟨.error "LastInsertId is not supported", .ok 1⟩
      "LastInsertId is not supported" rfl rfl rfl
    exact h
  · exact (insert_generated_key_writeback cmdInsWithId dbOK rowUVal 0 0 rfl rfl).1 (by decide)

/-- Claim C10: when the table has an auto-increment column that is not
among the input columns and the corresponding field of the row cannot
be set (the row was passed by value), Exec fails before executing: it
returns the cannot-set error and no call reaches the execution
interface. -/
theorem insert_unsettable_autoinc_no_exec (cmd : execRowCommand) (db : Execer) (row : RowArg)
    (t k : Nat) (ht : cmd.table = some t)
    (hk : findAutoInc (tableAt cmd.heap t).columns = some k)
    (hni : (t, k) ∉ cmd.inputs) (hcs : canSet row = false) :
    insertRowCommand.Exec cmd db row =
      ⟨.error ("Cannot set auto-increment value for type " ++ rowTypeName row),
        false, none, row⟩ := by
  simp [insertRowCommand.Exec, ht, hk, hni, hcs]

theorem insert_unsettable_autoinc_no_exec_witness :
    insertRowCommand.Exec cmdIns dbOK rowUVal =
      ⟨.error "Cannot set auto-increment value for type User", false, none, rowUVal⟩ := by
  have h := insert_unsettable_autoinc_no_exec cmdIns dbOK rowUVal 0 0 rfl rfl (by decide) rfl
  exact h

/-! Lemmas about association list lookup, supporting the mapper
theorems. -/

theorem lookup_none_iff_keys {α β : Type} [BEq α] [LawfulBEq α]
    (m : List (α × β)) (k : α) :
    m.lookup k = none ↔ ∀ p ∈ m, p.1 ≠ k := by
  rw [List.lookup_eq_none_iff]
  constructor
  · intro h p hp he
    exact absurd he.symm (by simpa using h p hp)
  · intro h p hp
    simpa [bne_iff_ne] using fun he => h p hp he.symm

theorem lookup_append_none {α β : Type} [BEq α] [LawfulBEq α]
    (m1 m2 : List (α × β)) (k : α) (h : m1.lookup k = none) :
    (m1 ++ m2).lookup k = m2.lookup k := by
  rw [List.lookup_append, h, Option.none_or]

theorem lookup_append_some {α β : Type} [BEq α] [LawfulBEq α]
    (m1 m2 : List (α × β)) (k : α) (v : β) (h : m1.lookup k = some v) :
    (m1 ++ m2).lookup k = some v := by
  rw [List.lookup_append, h]
  rfl

theorem lookup_map_value {α β γ : Type} [BEq α]
    (m : List (α × β)) (f : β → γ) (k : α) :
    (m.map fun p => (p.1, f p.2)).lookup k = (m.lookup k).map f := by
  induction m with
  | nil => simp
  | cons hd tl ih =>
      rcases hd with ⟨a, b⟩
      simp only [List.map_cons]
      rw [List.lookup_cons, List.lookup_cons]
      cases hk : (k == a)
      · exact ih
      · rfl

/-! Lemmas about the duplicate detection loop of getMapper. -/

theorem buildFieldMap_extends (heap : Heap) (cols : List (Nat × Nat))
    (m0 m : List (String × columnInfo)) (h : buildFieldMap heap cols m0 = .ok m) :
    ∃ m1, m = m0 ++ m1 := by
  induction cols generalizing m0 with
  | nil =>
      simp only [buildFieldMap] at h
      exact ⟨[], by simpa using h.symm⟩
  | cons tj rest ih =>
      simp only [buildFieldMap] at h
      cases hl : m0.lookup (colAt heap tj.1 tj.2).fieldName
      · rw [hl] at h
        obtain ⟨m1, hm1⟩ := ih _ h
        exact ⟨[((colAt heap tj.1 tj.2).fieldName, colAt heap tj.1 tj.2)] ++ m1, by
          rw [hm1, List.append_assoc]⟩
      · rw [hl] at h
        cases h

theorem buildFieldMap_lookup (heap : Heap) (cols : List (Nat × Nat))
    (m0 m : List (String × columnInfo)) (h : buildFieldMap heap cols m0 = .ok m) :
    ∀ tj ∈ cols, m.lookup (colAt heap tj.1 tj.2).fieldName = some (colAt heap tj.1 tj.2) := by
  induction cols generalizing m0 with
  | nil => intro tj htj; cases htj
  | cons hd rest ih =>
      intro tj htj
      simp only [buildFieldMap] at h
      cases hl : m0.lookup (colAt heap hd.1 hd.2).fieldName
      · rw [hl] at h
        rcases List.mem_cons.mp htj with rfl | hmem
        · obtain ⟨m1, hm1⟩ := buildFieldMap_extends heap rest _ m h
          subst hm1
          rw [List.append_assoc, lookup_append_none _ _ _ hl]
          simp
        · exact ih _ h tj hmem
      · rw [hl] at h
        cases h

theorem buildFieldMap_fresh (heap : Heap) (cols : List (Nat × Nat))
    (m0 m : List (String × columnInfo)) (h : buildFieldMap heap cols m0 = .ok m) :
    ∀ name, (∀ p ∈ m0, p.1 ≠ name) →
      name ∉ cols.map (fun tj => (colAt heap tj.1 tj.2).fieldName) →
      m.lookup name = none := by
  induction cols generalizing m0 with
  | nil =>
      intro name h0 _
      simp only [buildFieldMap] at h
      cases h
      exact (lookup_none_iff_keys _ name).mpr h0
  | cons hd rest ih =>
      intro name h0 hnot
      simp only [buildFieldMap] at h
      cases hl : m0.lookup (colAt heap hd.1 hd.2).fieldName
      · rw [hl] at h
        refine ih _ h name ?_ ?_
        · intro p hp
          rcases List.mem_append.mp hp with hp0 | hp1
          · exact h0 p hp0
          · have hp2 := List.mem_singleton.mp hp1
            intro he
            apply hnot
            rw [List.map_cons]
            apply List.mem_cons.mpr
            left
            rw [← he, hp2]
        · intro hmem
          exact hnot (List.mem_cons_of_mem _ hmem)
      · rw [hl] at h
        cases h

theorem buildFieldMap_disjoint (heap : Heap) (cols : List (Nat × Nat))
    (m0 m : List (String × columnInfo)) (h : buildFieldMap heap cols m0 = .ok m) :
    ∀ tj ∈ cols, ∀ p ∈ m0, p.1 ≠ (colAt heap tj.1 tj.2).fieldName := by
  induction cols generalizing m0 with
  | nil => intro tj htj; cases htj
  | cons hd rest ih =>
      intro tj htj p hp
      simp only [buildFieldMap] at h
      cases hl : m0.lookup (colAt heap hd.1 hd.2).fieldName
      · rw [hl] at h
        rcases List.mem_cons.mp htj with rfl | hmem
        · exact (lookup_none_iff_keys m0 _).mp hl p hp
        · exact ih _ h tj hmem p (List.mem_append.mpr (Or.inl hp))
      · rw [hl] at h
        cases h

theorem buildFieldMap_nodup (heap : Heap) (cols : List (Nat × Nat))
    (m0 m : List (String × columnInfo)) (h : buildFieldMap heap cols m0 = .ok m) :
    (cols.map fun tj => (colAt heap tj.1 tj.2).fieldName).Nodup := by
  induction cols generalizing m0 with
  | nil => simp
  | cons hd rest ih =>
      simp only [buildFieldMap] at h
      cases hl : m0.lookup (colAt heap hd.1 hd.2).fieldName
      · rw [hl] at h
        refine List.nodup_cons.mpr ⟨?_, ih _ h⟩
        intro hmem
        rcases List.mem_map.mp hmem with ⟨tj, htj, hfe⟩
        exact buildFieldMap_disjoint heap rest _ m h tj htj
          ((colAt heap hd.1 hd.2).fieldName, colAt heap hd.1 hd.2)
          (List.mem_append.mpr (Or.inr (List.mem_singleton.mpr rfl))) hfe.symm
      · rw [hl] at h
        cases h

theorem mapName_mapperOf_of_lookup (m : List (String × columnInfo)) (name : String)
    (ci : columnInfo) (h : m.lookup name = some ci) :
    mapName (mapperOf m) name = aliasOrName ci := by
  unfold mapName mapperOf
  rw [lookup_map_value, h]
  rfl

theorem mapName_mapperOf_of_none (m : List (String × columnInfo)) (name : String)
    (h : m.lookup name = none) :
    mapName (mapperOf m) name = name := by
  unfold mapName mapperOf
  rw [lookup_map_value, h]
  rfl

/-- Claim C4 counterexample: on a query command whose output columns
map two columns to the same struct field name, getMapper returns the
ambiguity error but caches nothing: the command state after the failing
call is exactly the original state, so the error is re-derived by every
later call rather than detected once and cached. -/
theorem mapper_error_not_cached :
    qcDup.getMapper = (.error "Cannot process query: multiple fields named ID", qcDup) := by
  rfl

/-- Claim C4 as amended: the field mapper is created nil by Queryf and
built lazily on first use; a second getMapper call returns exactly the
first result and state, so on success the mapper is computed at most
once and on failure the identical error is re-derived (not cached) on
every call; the mapping function sends the field name of every output
column to its declared alias or column name and leaves every name
outside the output column set unchanged; and duplicate destination
field names always yield a configuration error with the command left
unchanged. -/
theorem mapper_memoization_amended :
    (∀ fmt args heap, (Queryf fmt args heap).mapper = none) ∧
    (∀ qc : queryCommand, (qc.getMapper.2).getMapper = qc.getMapper) ∧
    (∀ qc : queryCommand, qc.mapper = none →
      ∀ mp qc2, qc.getMapper = (.ok mp, qc2) →
        (∀ tj ∈ qc.columns,
          mapName mp (colAt qc.heap tj.1 tj.2).fieldName = aliasOrName (colAt qc.heap tj.1 tj.2)) ∧
        (∀ name, name ∉ fieldNamesOf qc → mapName mp name = name)) ∧
    (∀ qc : queryCommand, qc.mapper = none → ¬ (fieldNamesOf qc).Nodup →
      ∃ e, qc.getMapper = (.error e, qc)) := by
  refine ⟨fun fmt args heap => rfl, ?_, ?_, ?_⟩
  · intro qc
    cases hm : qc.mapper with
    | some mp => simp [queryCommand.getMapper, hm]
    | none =>
        cases hb : buildFieldMap qc.heap qc.columns [] with
        | error e =>
            have h1 : qc.getMapper = (.error e, qc) := by
              simp [queryCommand.getMapper, hm, hb]
            rw [h1]
            exact h1
        | ok m =>
            have h1 : qc.getMapper = (.ok (mapperOf m), { qc with mapper := some (mapperOf m) }) := by
              simp [queryCommand.getMapper, hm, hb]
            rw [h1]
            simp [queryCommand.getMapper]
  · intro qc hm mp qc2 h
    cases hb : buildFieldMap qc.heap qc.columns [] with
    | error e =>
        have h1 : qc.getMapper = (.error e, qc) := by
          simp [queryCommand.getMapper, hm, hb]
        rw [h1] at h
        cases h
    | ok m =>
        have h1 : qc.getMapper = (.ok (mapperOf m), { qc with mapper := some (mapperOf m) }) := by
          simp [queryCommand.getMapper, hm, hb]
        rw [h1] at h
        have hmp : mp = mapperOf m := by
          have := congrArg Prod.fst h
          simpa using this.symm
        subst hmp
        constructor
        · intro tj htj
          exact mapName_mapperOf_of_lookup m _ _ (buildFieldMap_lookup qc.heap qc.columns [] m hb tj htj)
        · intro name hname
          refine mapName_mapperOf_of_none m name ?_
          exact buildFieldMap_fresh qc.heap qc.columns [] m hb name (by intro p hp; cases hp) hname
  · intro qc hm hdup
    cases hb : buildFieldMap qc.heap qc.columns [] with
    | error e =>
        exact ⟨e, by simp [queryCommand.getMapper, hm, hb]⟩
    | ok m =>
        exact absurd (buildFieldMap_nodup qc.heap qc.columns [] m hb) hdup

theorem mapper_memoization_amended_witness :
    mapName [("FullName", "full_name"), ("Email", "email")] "FullName" = "full_name" ∧
    mapName [("FullName", "full_name"), ("Email", "email")] "Email" = "email" ∧
    mapName [("FullName", "full_name"), ("Email", "email")] "CreatedAt" = "CreatedAt" ∧
    (qcSel.getMapper.2).getMapper = qcSel.getMapper ∧
    (∃ e, qcDup.getMapper = (.error e, qcDup)) := by
  have h3 := mapper_memoization_amended.2.2.1 qcSel rfl
    [("FullName", "full_name"), ("Email", "email")]
    { qcSel with mapper := some [("FullName", "full_name"), ("Email", "email")] } rfl
  refine ⟨?_, ?_, ?_, mapper_memoization_amended.2.1 qcSel,
    mapper_memoization_amended.2.2.2 qcDup rfl (by decide)⟩
  · exact h3.1 (0, 1) (by decide)
  · exact h3.1 (0, 2) (by decide)
  · exact h3.2 "CreatedAt" (by decide)

/-- Claim C7: the claim says every error is returned as a value and
none is raised as a panic; the code contradicts its own documentation
here: QueryRow, whose interface comment promises that errors are
deferred to the row handle, panics when mapper construction fails,
while Query returns the same error to the caller. -/
theorem queryRow_panics_on_mapper_error :
    (queryCommand.QueryRow qcDup dbRec []).1 =
      PanicOr.panicked "Cannot process query: multiple fields named ID" ∧
    (queryCommand.Query qcDup dbRec []).1 =
      .error "Cannot process query: multiple fields named ID" :=
  ⟨rfl, rfl⟩

/-- Claim C8: through the queryer adapter the SQL text handed to the
execution interface is always the command text, whatever query string
the scanning helper passed, and the claim says the caller arguments are
forwarded unchanged; the code contradicts that for QueryRowx: it passes
the argument slice to a variadic parameter without expanding it, so the
execution interface receives a single slice-valued argument instead of
the original arguments. -/
theorem queryRowx_wraps_args :
    (queryer.QueryRowx qRec "IGNORED SQL" [.intV 1, .intV 2]).1 =
      PanicOr.ok ⟨qcOK.command, [GoVal.sliceV [.intV 1, .intV 2]], [("Name", "name")]⟩ ∧
    [GoVal.sliceV [.intV 1, .intV 2]] ≠ [GoVal.intV 1, GoVal.intV 2] ∧
    queryer.Query qRec "IGNORED SQL" [.intV 1, .intV 2] = .ok [[.strV qcOK.command]] := by
  refine ⟨rfl, ?_, rfl⟩
  intro h
  simpa using congrArg List.length h

/-- Claim C6 counterexample: in the update scenario (input column list
filtered to name, bare placeholder condition on id) the bare
placeholder does not receive a position from UpdateRowf: the built SQL
renders it with its original unassigned position 0, not with the next
position in declared order. -/
theorem update_bare_placeholder_unnumbered :
    (UpdateRowf fmtUpd argsUpd heapU).command = "update users set name=?1 where id = ?0" ∧
    (UpdateRowf fmtUpd argsUpd heapU).command ≠ "update users set name=?1 where id = ?2" := by
  exact ⟨by rfl, by decide⟩

/-- Claim C6 as amended: in the update scenario the filtered input
column receives position 1 in declared order, the bare placeholder
directive receives no position from UpdateRowf (its stored position is
left untouched, which shows in the rendered SQL), and Exec returns
exactly the affected row count reported by the execution result,
whatever it is, never reinterpreted or bounded. -/
theorem update_scenario_amended :
    (UpdateRowf fmtUpd argsUpd heapU).command = "update users set name=?1 where id = ?0" ∧
    colPos (UpdateRowf fmtUpd argsUpd heapU).heap 1 1 = 1 ∧
    (∀ (cmd : execRowCommand) (db : Execer) (row : RowArg) (as : List GoVal)
        (res : ExecResult) (n : Int),
      cmd.Args row = .ok as → db cmd.command as = .ok res → res.rowsAffected = .ok n →
      updateRowCommand.Exec cmd db row = .ok n) := by
  refine ⟨by rfl, by rfl, ?_⟩
  intro cmd db row as res n hA hdb hra
  simp [updateRowCommand.Exec, execRowCommand.doExec, hA, hdb, hra]

theorem update_scenario_amended_witness :
    updateRowCommand.Exec cmdUpdW dbFive rowU = .ok 5 := by
  have h := update_scenario_amended.2.2 cmdUpdW dbFive rowU [.strV "a"] ⟨.ok 42, .ok 5⟩ 5
    rfl rfl rfl
  exact h

/-! Lemmas about List.set and getD. -/

theorem getD_set_self {α : Type} (l : List α) (i : Nat) (a d : α) (h : i < l.length) :
    (l.set i a).getD i d = a := by
  simp [List.getD_eq_getElem?_getD, List.getElem?_set_self h]

theorem getD_set_ne {α : Type} (l : List α) (i j : Nat) (a d : α) (h : i ≠ j) :
    (l.set i a).getD j d = l.getD j d := by
  simp [List.getD_eq_getElem?_getD, List.getElem?_set_ne h]

/-! Lemmas about heapSetPosition and applyPositions: position
assignment touches exactly the addressed position field. -/

theorem length_heapSetPosition (heap : Heap) (t j n : Nat) :
    (heapSetPosition heap t j n).length = heap.length := by
  simp [heapSetPosition]

theorem tableAt_heapSetPosition_ne (heap : Heap) (t j n t2 : Nat) (h : t ≠ t2) :
    tableAt (heapSetPosition heap t j n) t2 = tableAt heap t2 := by
  unfold heapSetPosition tableAt
  exact getD_set_ne _ _ _ _ _ h

theorem tableAt_heapSetPosition_self (heap : Heap) (t j n : Nat) (ht : t < heap.length) :
    tableAt (heapSetPosition heap t j n) t =
      { tableAt heap t with
        columns := (tableAt heap t).columns.set j (setPosition (colAt heap t j) n) } := by
  unfold heapSetPosition tableAt
  exact getD_set_self _ _ _ _ ht

theorem colLen_heapSetPosition (heap : Heap) (t j n t2 : Nat) :
    colLen (heapSetPosition heap t j n) t2 = colLen heap t2 := by
  by_cases h : t = t2
  · subst h
    by_cases ht : t < heap.length
    · rw [colLen, tableAt_heapSetPosition_self heap t j n ht]
      simp [colLen]
    · unfold colLen heapSetPosition
      rw [List.set_eq_of_length_le (Nat.le_of_not_lt ht)]
  · rw [colLen, tableAt_heapSetPosition_ne heap t j n t2 h]
    rfl

theorem colAt_heapSetPosition_self (heap : Heap) (t j n : Nat)
    (ht : t < heap.length) (hj : j < colLen heap t) :
    colAt (heapSetPosition heap t j n) t j = setPosition (colAt heap t j) n := by
  rw [colAt, tableAt_heapSetPosition_self heap t j n ht]
  exact getD_set_self _ _ _ _ hj

theorem colAt_heapSetPosition_other (heap : Heap) (t j n t2 j2 : Nat)
    (h : (t, j) ≠ (t2, j2)) :
    colAt (heapSetPosition heap t j n) t2 j2 = colAt heap t2 j2 := by
  by_cases ht : t = t2
  · subst ht
    have hj : j ≠ j2 := fun he => h (by rw [he])
    by_cases htl : t < heap.length
    · rw [colAt, tableAt_heapSetPosition_self heap t j n htl]
      exact getD_set_ne _ _ _ _ _ hj
    · unfold colAt tableAt heapSetPosition
      rw [List.set_eq_of_length_le (Nat.le_of_not_lt htl)]
  · rw [colAt, tableAt_heapSetPosition_ne heap t j n t2 ht]
    rfl

theorem erasePos_colAt_heapSetPosition (heap : Heap) (t j n t2 j2 : Nat) :
    erasePos (colAt (heapSetPosition heap t j n) t2 j2) = erasePos (colAt heap t2 j2) := by
  by_cases h : (t, j) = (t2, j2)
  · cases h
    by_cases htl : t < heap.length
    · by_cases hj : j < colLen heap t
      · rw [colAt_heapSetPosition_self heap t j n htl hj]
        simp [erasePos, setPosition]
      · rw [colAt, tableAt_heapSetPosition_self heap t j n htl,
          List.set_eq_of_length_le (Nat.le_of_not_lt hj)]
        rfl
    · unfold colAt tableAt heapSetPosition
      rw [List.set_eq_of_length_le (Nat.le_of_not_lt htl)]
  · rw [colAt_heapSetPosition_other heap t j n t2 j2 h]

theorem erasePos_colAt_applyPositions (inputs : List (Nat × Nat)) (heap : Heap)
    (start t j : Nat) :
    erasePos (colAt (applyPositions heap inputs start) t j) = erasePos (colAt heap t j) := by
  induction inputs generalizing heap start with
  | nil => rfl
  | cons p rest ih =>
      rcases p with ⟨t0, j0⟩
      rw [applyPositions]
      exact (ih _ _).trans (erasePos_colAt_heapSetPosition heap t0 j0 start t j)

theorem length_applyPositions (inputs : List (Nat × Nat)) (heap : Heap) (start : Nat) :
    (applyPositions heap inputs start).length = heap.length := by
  induction inputs generalizing heap start with
  | nil => rfl
  | cons p rest ih =>
      rcases p with ⟨t0, j0⟩
      rw [applyPositions]
      exact (ih _ _).trans (length_heapSetPosition heap t0 j0 start)

theorem colLen_applyPositions (inputs : List (Nat × Nat)) (heap : Heap) (start t : Nat) :
    colLen (applyPositions heap inputs start) t = colLen heap t := by
  induction inputs generalizing heap start with
  | nil => rfl
  | cons p rest ih =>
      rcases p with ⟨t0, j0⟩
      rw [applyPositions]
      exact (ih _ _).trans (colLen_heapSetPosition heap t0 j0 start t)

theorem colPos_applyPositions_not_mem (inputs : List (Nat × Nat)) (heap : Heap)
    (start t j : Nat) (h : (t, j) ∉ inputs) :
    colPos (applyPositions heap inputs start) t j = colPos heap t j := by
  induction inputs generalizing heap start with
  | nil => rfl
  | cons p rest ih =>
      rcases p with ⟨t0, j0⟩
      rw [applyPositions]
      have h1 : (t, j) ∉ rest := fun hm => h (List.mem_cons_of_mem _ hm)
      have h2 : (t0, j0) ≠ (t, j) := fun he => h (by rw [← he]; exact List.mem_cons_self _ _)
      rw [ih _ _ h1]
      unfold colPos
      rw [colAt_heapSetPosition_other heap t0 j0 start t j h2]

theorem applyPositions_assign (inputs : List (Nat × Nat)) (heap : Heap) (start : Nat)
    (hval : ∀ p ∈ inputs, p.1 < heap.length ∧ p.2 < colLen heap p.1)
    (hnd : inputs.Nodup) :
    ∀ m, m < inputs.length →
      colPos (applyPositions heap inputs start) (inputs.getD m (0, 0)).1
        (inputs.getD m (0, 0)).2 = start + m := by
  induction inputs generalizing heap start with
  | nil => intro m hm; simp at hm
  | cons p rest ih =>
      rcases p with ⟨t0, j0⟩
      intro m hm
      rcases List.nodup_cons.mp hnd with ⟨hnm, hnd2⟩
      cases m with
      | zero =>
          simp only [List.getD_cons_zero]
          rw [applyPositions]
          rw [colPos, ← colPos, colPos_applyPositions_not_mem rest _ _ _ _ hnm]
          obtain ⟨ht0, hj0⟩ := hval (t0, j0) (List.mem_cons_self _ _)
          rw [colPos, colAt_heapSetPosition_self heap t0 j0 start ht0 hj0]
          simp [setPosition]
      | succ m2 =>
          simp only [List.getD_cons_succ]
          rw [applyPositions]
          have hv2 : ∀ p ∈ rest, p.1 < (heapSetPosition heap t0 j0 start).length ∧
              p.2 < colLen (heapSetPosition heap t0 j0 start) p.1 := by
            intro p hp
            obtain ⟨ha, hb⟩ := hval p (List.mem_cons_of_mem _ hp)
            rw [length_heapSetPosition, colLen_heapSetPosition]
            exact ⟨ha, hb⟩
          have hme := ih (heapSetPosition heap t0 j0 start) (start + 1) hv2 hnd2 m2
            (by simpa using hm)
          rw [hme]
          omega

/-! Lemmas about the mixed input list of Execf. -/

theorem colsOfE_cons_col (t j : Nat) (rest : List ExecInput) :
    colsOfE (.col t j :: rest) = (t, j) :: colsOfE rest := rfl

theorem colsOfE_cons_ph (idx : Nat) (rest : List ExecInput) :
    colsOfE (.ph idx :: rest) = colsOfE rest := rfl

theorem phsOfE_cons_col (t j : Nat) (rest : List ExecInput) :
    phsOfE (.col t j :: rest) = phsOfE rest := rfl

theorem phsOfE_cons_ph (idx : Nat) (rest : List ExecInput) :
    phsOfE (.ph idx :: rest) = idx :: phsOfE rest := rfl

theorem phsOfE_append (l1 l2 : List ExecInput) :
    phsOfE (l1 ++ l2) = phsOfE l1 ++ phsOfE l2 :=
  List.filterMap_append _ _ _

theorem phsOfE_map_col (t : Nat) (cols : List Nat) :
    phsOfE (cols.map fun j => ExecInput.col t j) = [] := by
  induction cols with
  | nil => rfl
  | cons j rest ih => simpa [phsOfE] using ih

theorem applyExecPositions_heap_length (inputs : List ExecInput) (heap : Heap)
    (args : List Arg) (start : Nat) :
    (applyExecPositions heap args inputs start).1.length = heap.length := by
  induction inputs generalizing heap args start with
  | nil => rfl
  | cons i rest ih =>
      cases i with
      | col t j =>
          rw [applyExecPositions]
          exact (ih _ _ _).trans (length_heapSetPosition heap t j start)
      | ph idx =>
          rw [applyExecPositions]
          exact ih _ _ _

theorem applyExecPositions_colLen (inputs : List ExecInput) (heap : Heap)
    (args : List Arg) (start t2 : Nat) :
    colLen (applyExecPositions heap args inputs start).1 t2 = colLen heap t2 := by
  induction inputs generalizing heap args start with
  | nil => rfl
  | cons i rest ih =>
      cases i with
      | col t j =>
          rw [applyExecPositions]
          exact (ih _ _ _).trans (colLen_heapSetPosition heap t j start t2)
      | ph idx =>
          rw [applyExecPositions]
          exact ih _ _ _

theorem applyExecPositions_args_length (inputs : List ExecInput) (heap : Heap)
    (args : List Arg) (start : Nat) :
    (applyExecPositions heap args inputs start).2.length = args.length := by
  induction inputs generalizing heap args start with
  | nil => rfl
  | cons i rest ih =>
      cases i with
      | col t j =>
          rw [applyExecPositions]
          exact ih _ _ _
      | ph idx =>
          rw [applyExecPositions]
          exact (ih _ _ _).trans (by rw [List.length_set])

theorem colPos_applyExecPositions_not_mem (inputs : List ExecInput) (heap : Heap)
    (args : List Arg) (start t j : Nat) (h : (t, j) ∉ colsOfE inputs) :
    colPos (applyExecPositions heap args inputs start).1 t j = colPos heap t j := by
  induction inputs generalizing heap args start with
  | nil => rfl
  | cons i rest ih =>
      cases i with
      | col t0 j0 =>
          rw [colsOfE_cons_col] at h
          have h1 : (t, j) ∉ colsOfE rest := fun hm => h (List.mem_cons_of_mem _ hm)
          have h2 : (t0, j0) ≠ (t, j) := fun he => h (by rw [← he]; exact List.mem_cons_self _ _)
          rw [applyExecPositions, ih _ _ _ h1]
          unfold colPos
          rw [colAt_heapSetPosition_other heap t0 j0 start t j h2]
      | ph idx =>
          rw [colsOfE_cons_ph] at h
          rw [applyExecPositions]
          exact ih _ _ _ h

theorem argsGetD_applyExecPositions_not_mem (inputs : List ExecInput) (heap : Heap)
    (args : List Arg) (start idx : Nat) (h : idx ∉ phsOfE inputs) :
    (applyExecPositions heap args inputs start).2.getD idx (.value "") =
      args.getD idx (.value "") := by
  induction inputs generalizing heap args start with
  | nil => rfl
  | cons i rest ih =>
      cases i with
      | col t0 j0 =>
          rw [phsOfE_cons_col] at h
          rw [applyExecPositions]
          exact ih _ _ _ h
      | ph idx0 =>
          rw [phsOfE_cons_ph] at h
          have h1 : idx ∉ phsOfE rest := fun hm => h (List.mem_cons_of_mem _ hm)
          have h2 : idx0 ≠ idx := fun he => h (by rw [← he]; exact List.mem_cons_self _ _)
          rw [applyExecPositions, ih _ _ _ h1]
          exact getD_set_ne _ _ _ _ _ h2

theorem argPos_phSetPosition (a : Arg) (n : Nat) (h : isPh a = true) :
    argPos (phSetPosition a n) = n := by
  cases a with
  | placeholder t nm p => rfl
  | tableName c t => cases h
  | columnList c t cols => cases h
  | value s => cases h

theorem applyExecPositions_assign (inputs : List ExecInput) (heap : Heap) (args : List Arg)
    (start : Nat)
    (hvalc : ∀ p ∈ colsOfE inputs, p.1 < heap.length ∧ p.2 < colLen heap p.1)
    (hndc : (colsOfE inputs).Nodup)
    (hph : ∀ idx ∈ phsOfE inputs, idx < args.length ∧ isPh (args.getD idx (.value "")) = true)
    (hndp : (phsOfE inputs).Nodup) :
    ∀ m, m < inputs.length →
      (match inputs.getD m (.ph 0) with
       | .col t j => colPos (applyExecPositions heap args inputs start).1 t j = start + m
       | .ph idx =>
          argPos ((applyExecPositions heap args inputs start).2.getD idx (.value "")) =
            start + m) := by
  induction inputs generalizing heap args start with
  | nil => intro m hm; simp at hm
  | cons i rest ih =>
      intro m hm
      cases i with
      | col t0 j0 =>
          rw [colsOfE_cons_col] at hvalc hndc
          rw [phsOfE_cons_col] at hph hndp
          rcases List.nodup_cons.mp hndc with ⟨hnm, hndc2⟩
          cases m with
          | zero =>
              simp only [List.getD_cons_zero]
              rw [applyExecPositions]
              rw [colPos_applyExecPositions_not_mem rest _ _ _ _ _ hnm]
              obtain ⟨ht0, hj0⟩ := hvalc (t0, j0) (List.mem_cons_self _ _)
              rw [colPos, colAt_heapSetPosition_self heap t0 j0 start ht0 hj0]
              simp [setPosition]
          | succ m2 =>
              simp only [List.getD_cons_succ]
              rw [applyExecPositions]
              have hv2 : ∀ p ∈ colsOfE rest, p.1 < (heapSetPosition heap t0 j0 start).length ∧
                  p.2 < colLen (heapSetPosition heap t0 j0 start) p.1 := by
                intro p hp
                obtain ⟨ha, hb⟩ := hvalc p (List.mem_cons_of_mem _ hp)
                rw [length_heapSetPosition, colLen_heapSetPosition]
                exact ⟨ha, hb⟩
              have hme := ih (heapSetPosition heap t0 j0 start) args (start + 1) hv2 hndc2
                hph hndp m2 (by simpa using hm)
              have harith : start + (m2 + 1) = start + 1 + m2 := by omega
              rw [harith]
              exact hme
      | ph idx0 =>
          rw [colsOfE_cons_ph] at hvalc hndc
          rw [phsOfE_cons_ph] at hph hndp
          rcases List.nodup_cons.mp hndp with ⟨hnp, hndp2⟩
          obtain ⟨hidx0, hisph⟩ := hph idx0 (List.mem_cons_self _ _)
          cases m with
          | zero =>
              simp only [List.getD_cons_zero]
              rw [applyExecPositions]
              rw [argsGetD_applyExecPositions_not_mem rest _ _ _ _ hnp]
              rw [getD_set_self _ _ _ _ hidx0]
              rw [argPos_phSetPosition _ _ hisph]
              omega
          | succ m2 =>
              simp only [List.getD_cons_succ]
              rw [applyExecPositions]
              have hph2 : ∀ idx ∈ phsOfE rest,
                  idx < (args.set idx0 (phSetPosition (args.getD idx0 (.value "")) start)).length ∧
                  isPh ((args.set idx0 (phSetPosition (args.getD idx0 (.value "")) start)).getD idx
                    (.value "")) = true := by
                intro idx hidx
                have h2 : idx0 ≠ idx := fun he => hnp (by rw [he]; exact hidx)
                obtain ⟨ha, hb⟩ := hph idx (List.mem_cons_of_mem _ hidx)
                rw [List.length_set, getD_set_ne _ _ _ _ _ h2]
                exact ⟨ha, hb⟩
              have hme := ih heap (args.set idx0 (phSetPosition (args.getD idx0 (.value "")) start))
                (start + 1) hvalc hndc hph2 hndp2 m2 (by simpa using hm)
              have harith : start + (m2 + 1) = start + 1 + m2 := by omega
              rw [harith]
              exact hme

theorem phsOfE_collectAux (args : List Arg) (i : Nat) :
    (∀ idx ∈ phsOfE (collectExecInputsAux i args),
      i ≤ idx ∧ idx - i < args.length ∧ isPh (args.getD (idx - i) (.value "")) = true) ∧
    (phsOfE (collectExecInputsAux i args)).Nodup := by
  induction args generalizing i with
  | nil =>
      exact ⟨fun idx h => absurd h (by simp [collectExecInputsAux, phsOfE]),
        by simp [collectExecInputsAux, phsOfE]⟩
  | cons a rest ih =>
      cases a with
      | columnList c t cols =>
          have hred : collectExecInputsAux i (Arg.columnList c t cols :: rest) =
              (if c.isInput then cols.map fun j => ExecInput.col t j else []) ++
                collectExecInputsAux (i + 1) rest := rfl
          rw [hred, phsOfE_append]
          have hempty :
              phsOfE (if c.isInput then cols.map fun j => ExecInput.col t j else []) = [] := by
            by_cases hc : c.isInput
            · rw [if_pos hc]; exact phsOfE_map_col t cols
            · rw [if_neg hc]; rfl
          rw [hempty, List.nil_append]
          obtain ⟨ihf, ihn⟩ := ih (i + 1)
          refine ⟨?_, ihn⟩
          intro idx hidx
          obtain ⟨h1, h2, h3⟩ := ihf idx hidx
          refine ⟨by omega, by simp; omega, ?_⟩
          have hsub : idx - i = (idx - (i + 1)) + 1 := by omega
          rw [hsub, List.getD_cons_succ]
          exact h3
      | tableName c t =>
          have hred : collectExecInputsAux i (Arg.tableName c t :: rest) =
              collectExecInputsAux (i + 1) rest := rfl
          rw [hred]
          obtain ⟨ihf, ihn⟩ := ih (i + 1)
          refine ⟨?_, ihn⟩
          intro idx hidx
          obtain ⟨h1, h2, h3⟩ := ihf idx hidx
          refine ⟨by omega, by simp; omega, ?_⟩
          have hsub : idx - i = (idx - (i + 1)) + 1 := by omega
          rw [hsub, List.getD_cons_succ]
          exact h3
      | value s =>
          have hred : collectExecInputsAux i (Arg.value s :: rest) =
              collectExecInputsAux (i + 1) rest := rfl
          rw [hred]
          obtain ⟨ihf, ihn⟩ := ih (i + 1)
          refine ⟨?_, ihn⟩
          intro idx hidx
          obtain ⟨h1, h2, h3⟩ := ihf idx hidx
          refine ⟨by omega, by simp; omega, ?_⟩
          have hsub : idx - i = (idx - (i + 1)) + 1 := by omega
          rw [hsub, List.getD_cons_succ]
          exact h3
      | placeholder t nm p =>
          have hred : collectExecInputsAux i (Arg.placeholder t nm p :: rest) =
              ExecInput.ph i :: collectExecInputsAux (i + 1) rest := rfl
          rw [hred, phsOfE_cons_ph]
          obtain ⟨ihf, ihn⟩ := ih (i + 1)
          constructor
          · intro idx hidx
            rcases List.mem_cons.mp hidx with hidx0 | hmem
            · subst hidx0
              refine ⟨Nat.le_refl _, by simp, ?_⟩
              rw [Nat.sub_self, List.getD_cons_zero]
              rfl
            · obtain ⟨h1, h2, h3⟩ := ihf idx hmem
              refine ⟨by omega, by simp; omega, ?_⟩
              have hsub : idx - i = (idx - (i + 1)) + 1 := by omega
              rw [hsub, List.getD_cons_succ]
              exact h3
          · refine List.nodup_cons.mpr ⟨?_, ihn⟩
            intro hmem
            obtain ⟨h1, _, _⟩ := ihf i hmem
            omega

theorem buildPositions_assign (ins : List (Nat × Nat)) (hp2 : Heap)
    (hnd : ins.Nodup)
    (hval : ∀ p ∈ ins, p.1 < (applyPositions hp2 ins 1).length ∧
      p.2 < colLen (applyPositions hp2 ins 1) p.1)
    (m : Nat) (hm : m < ins.length) :
    colPos (applyPositions hp2 ins 1) (ins.getD m (0, 0)).1 (ins.getD m (0, 0)).2 = m + 1 := by
  have hval2 : ∀ p ∈ ins, p.1 < hp2.length ∧ p.2 < colLen hp2 p.1 := by
    intro p hp
    obtain ⟨ha, hb⟩ := hval p hp
    rw [length_applyPositions] at ha
    rw [colLen_applyPositions] at hb
    exact ⟨ha, hb⟩
  exact (applyPositions_assign ins hp2 1 hval2 hnd m hm).trans (Nat.add_comm 1 m)

theorem execPositions_assign_post (args2 : List Arg) (hp2 : Heap)
    (hndc : (colsOfE (collectExecInputs args2)).Nodup)
    (hval : ∀ p ∈ colsOfE (collectExecInputs args2),
      p.1 < (applyExecPositions hp2 args2 (collectExecInputs args2) 1).1.length ∧
      p.2 < colLen (applyExecPositions hp2 args2 (collectExecInputs args2) 1).1 p.1)
    (m : Nat) (hm : m < (collectExecInputs args2).length) :
    (match (collectExecInputs args2).getD m (.ph 0) with
     | .col t j => colPos (applyExecPositions hp2 args2 (collectExecInputs args2) 1).1 t j = m + 1
     | .ph idx =>
        argPos ((applyExecPositions hp2 args2 (collectExecInputs args2) 1).2.getD idx
          (.value "")) = m + 1) := by
  have hval2 : ∀ p ∈ colsOfE (collectExecInputs args2),
      p.1 < hp2.length ∧ p.2 < colLen hp2 p.1 := by
    intro p hp
    obtain ⟨ha, hb⟩ := hval p hp
    rw [applyExecPositions_heap_length] at ha
    rw [applyExecPositions_colLen] at hb
    exact ⟨ha, hb⟩
  have hphs := phsOfE_collectAux args2 0
  have hph : ∀ idx ∈ phsOfE (collectExecInputs args2),
      idx < args2.length ∧ isPh (args2.getD idx (.value "")) = true := by
    intro idx hidx
    obtain ⟨h1, h2, h3⟩ := hphs.1 idx hidx
    rw [Nat.sub_zero] at h2 h3
    exact ⟨h2, h3⟩
  have hme := applyExecPositions_assign (collectExecInputs args2) hp2 args2 1 hval2 hndc
    hph hphs.2 m hm
  have harith : (1 : Nat) + m = m + 1 := Nat.add_comm 1 m
  rw [harith] at hme
  exact hme

/-- Claim C5: in each of the four builders, the input columns
accumulated from matching directives receive placeholder positions
1..N in exactly accumulation order; position assignment mutates only
the position field of the addressed cloned column; in Execf bare
Placeholder directives also receive positions, interleaved with
column-list inputs in declared argument order; and execution never
alters the built command (Exec passes the stored SQL text and caller
arguments straight to the execution interface). -/
theorem placeholder_positions_assigned :
    (∀ fmt args heap,
      (InsertRowf fmt args heap).inputs.Nodup →
      (∀ p ∈ (InsertRowf fmt args heap).inputs,
        p.1 < (InsertRowf fmt args heap).heap.length ∧
        p.2 < colLen (InsertRowf fmt args heap).heap p.1) →
      ∀ m, m < (InsertRowf fmt args heap).inputs.length →
        colPos (InsertRowf fmt args heap).heap
          ((InsertRowf fmt args heap).inputs.getD m (0, 0)).1
          ((InsertRowf fmt args heap).inputs.getD m (0, 0)).2 = m + 1) ∧
    (∀ fmt args heap,
      (UpdateRowf fmt args heap).inputs.Nodup →
      (∀ p ∈ (UpdateRowf fmt args heap).inputs,
        p.1 < (UpdateRowf fmt args heap).heap.length ∧
        p.2 < colLen (UpdateRowf fmt args heap).heap p.1) →
      ∀ m, m < (UpdateRowf fmt args heap).inputs.length →
        colPos (UpdateRowf fmt args heap).heap
          ((UpdateRowf fmt args heap).inputs.getD m (0, 0)).1
          ((UpdateRowf fmt args heap).inputs.getD m (0, 0)).2 = m + 1) ∧
    (∀ fmt args heap,
      (Queryf fmt args heap).inputs.Nodup →
      (∀ p ∈ (Queryf fmt args heap).inputs,
        p.1 < (Queryf fmt args heap).heap.length ∧
        p.2 < colLen (Queryf fmt args heap).heap p.1) →
      ∀ m, m < (Queryf fmt args heap).inputs.length →
        colPos (Queryf fmt args heap).heap
          ((Queryf fmt args heap).inputs.getD m (0, 0)).1
          ((Queryf fmt args heap).inputs.getD m (0, 0)).2 = m + 1) ∧
    (∀ heap inputs start t j,
      erasePos (colAt (applyPositions heap inputs start) t j) = erasePos (colAt heap t j)) ∧
    (∀ fmt args heap,
      (colsOfE (ExecfCore fmt args heap).inputs).Nodup →
      (∀ p ∈ colsOfE (ExecfCore fmt args heap).inputs,
        p.1 < (ExecfCore fmt args heap).heapOut.length ∧
        p.2 < colLen (ExecfCore fmt args heap).heapOut p.1) →
      ∀ m, m < (ExecfCore fmt args heap).inputs.length →
        (match (ExecfCore fmt args heap).inputs.getD m (.ph 0) with
         | .col t j => colPos (ExecfCore fmt args heap).heapOut t j = m + 1
         | .ph idx =>
            argPos ((ExecfCore fmt args heap).argsOut.getD idx (.value "")) = m + 1)) ∧
    (∀ fmt args heap (db : Execer) (cargs : List GoVal),
      execCommand.Exec (Execf fmt args heap) db cargs =
        db (Execf fmt args heap).command cargs) := by
  refine ⟨?_, ?_, ?_, ?_, ?_, ?_⟩
  · intro fmt args heap hnd hval m hm
    exact buildPositions_assign _ _ hnd hval m hm
  · intro fmt args heap hnd hval m hm
    exact buildPositions_assign _ _ hnd hval m hm
  · intro fmt args heap hnd hval m hm
    exact buildPositions_assign _ _ hnd hval m hm
  · intro heap inputs start t j
    exact erasePos_colAt_applyPositions inputs heap start t j
  · intro fmt args heap hndc hval m hm
    exact execPositions_assign_post _ _ hndc hval m hm
  · intro fmt args heap db cargs
    rfl

theorem placeholder_positions_assigned_witness :
    colPos (InsertRowf fmtIns argsIns heapU).heap 1 1 = 1 ∧
    colPos (InsertRowf fmtIns argsIns heapU).heap 1 2 = 2 ∧
    colPos (ExecfCore fmtExec argsExec heapU).heapOut 1 1 = 1 ∧
    argPos ((ExecfCore fmtExec argsExec heapU).argsOut.getD 1 (.value "")) = 2 := by
  refine ⟨?_, ?_, ?_, ?_⟩
  · exact placeholder_positions_assigned.1 fmtIns argsIns heapU (by decide) (by decide)
      0 (by decide)
  · exact placeholder_positions_assigned.1 fmtIns argsIns heapU (by decide) (by decide)
      1 (by decide)
  · exact placeholder_positions_assigned.2.2.2.2.1 fmtExec argsExec heapU (by decide)
      (by decide) 0 (by decide)
  · exact placeholder_positions_assigned.2.2.2.2.1 fmtExec argsExec heapU (by decide)
      (by decide) 1 (by decide)

/-! Lemmas about first-occurrence lists and their indices. -/

theorem idxIn_lt (t : Nat) (l : List Nat) (h : t ∈ l) : idxIn t l < l.length := by
  induction l with
  | nil => cases h
  | cons u rest ih =>
      by_cases hu : u = t
      · simp [idxIn, hu]
      · rcases List.mem_cons.mp h with he | hm
        · exact absurd he.symm hu
        · simp only [idxIn, if_neg hu, List.length_cons]
          exact Nat.succ_lt_succ (ih hm)

theorem getD_idxIn (t : Nat) (l : List Nat) (h : t ∈ l) : l.getD (idxIn t l) 0 = t := by
  induction l with
  | nil => cases h
  | cons u rest ih =>
      by_cases hu : u = t
      · simp [idxIn, hu]
      · rcases List.mem_cons.mp h with he | hm
        · exact absurd he.symm hu
        · simp only [idxIn, if_neg hu, List.getD_cons_succ]
          exact ih hm

theorem idxIn_inj (t u : Nat) (l : List Nat) (ht : t ∈ l) (hu : u ∈ l)
    (h : idxIn t l = idxIn u l) : t = u := by
  have h1 := getD_idxIn t l ht
  have h2 := getD_idxIn u l hu
  rw [h] at h1
  exact h1.symm.trans h2

theorem usedTables_cons_none (a : Arg) (rest : List Arg) (h : argTable a = none) :
    usedTables (a :: rest) = usedTables rest := by
  simp [usedTables, List.filterMap_cons, h]

theorem usedTables_cons_some (a : Arg) (rest : List Arg) (t0 : Nat)
    (h : argTable a = some t0) :
    usedTables (a :: rest) = t0 :: usedTables rest := by
  simp [usedTables, List.filterMap_cons, h]

theorem newTables_cons_none (a : Arg) (rest : List Arg) (known : List Nat)
    (h : argTable a = none) :
    newTables (a :: rest) known = newTables rest known := by
  simp [newTables, h]

theorem newTables_cons_some (a : Arg) (rest : List Arg) (known : List Nat) (t0 : Nat)
    (h : argTable a = some t0) :
    newTables (a :: rest) known =
      if t0 ∈ known then newTables rest known else t0 :: newTables rest (t0 :: known) := by
  simp [newTables, h]

theorem usedTables_sub_newTables (args : List Arg) (known : List Nat) :
    ∀ t ∈ usedTables args, t ∈ newTables args known ∨ t ∈ known := by
  induction args generalizing known with
  | nil => intro t h; simp [usedTables] at h
  | cons a rest ih =>
      intro t h
      cases ha : argTable a with
      | none =>
          rw [usedTables_cons_none a rest ha] at h
          rw [newTables_cons_none a rest known ha]
          exact ih known t h
      | some t0 =>
          rw [usedTables_cons_some a rest t0 ha] at h
          rw [newTables_cons_some a rest known t0 ha]
          by_cases hk : t0 ∈ known
          · rw [if_pos hk]
            rcases List.mem_cons.mp h with he | hm
            · subst he; exact Or.inr hk
            · exact ih known t hm
          · rw [if_neg hk]
            rcases List.mem_cons.mp h with he | hm
            · subst he; exact Or.inl (List.mem_cons_self _ _)
            · rcases ih (t0 :: known) t hm with h1 | h1
              · exact Or.inl (List.mem_cons_of_mem _ h1)
              · rcases List.mem_cons.mp h1 with he2 | h2
                · subst he2; exact Or.inl (List.mem_cons_self _ _)
                · exact Or.inr h2

theorem mem_newTables (args : List Arg) (known : List Nat) :
    ∀ t ∈ newTables args known, t ∈ usedTables args ∧ t ∉ known := by
  induction args generalizing known with
  | nil => intro t h; cases h
  | cons a rest ih =>
      intro t h
      cases ha : argTable a with
      | none =>
          rw [newTables_cons_none a rest known ha] at h
          obtain ⟨h1, h2⟩ := ih known t h
          exact ⟨by rw [usedTables_cons_none a rest ha]; exact h1, h2⟩
      | some t0 =>
          rw [newTables_cons_some a rest known t0 ha] at h
          by_cases hk : t0 ∈ known
          · rw [if_pos hk] at h
            obtain ⟨h1, h2⟩ := ih known t h
            exact ⟨by rw [usedTables_cons_some a rest t0 ha]; exact List.mem_cons_of_mem _ h1, h2⟩
          · rw [if_neg hk] at h
            rcases List.mem_cons.mp h with he | hm
            · subst he
              exact ⟨by rw [usedTables_cons_some a rest t ha]; exact List.mem_cons_self _ _, hk⟩
            · obtain ⟨h1, h2⟩ := ih (t0 :: known) t hm
              refine ⟨by rw [usedTables_cons_some a rest t0 ha]; exact List.mem_cons_of_mem _ h1, ?_⟩
              exact fun hc => h2 (List.mem_cons_of_mem _ hc)

theorem lookup_cons_ne {α β : Type} [BEq α] [LawfulBEq α] (k a : α) (b : β)
    (m : List (α × β)) (h : k ≠ a) :
    ((a, b) :: m).lookup k = m.lookup k := by
  rw [List.lookup_cons]
  cases hbe : k == a
  · rfl
  · exact absurd (eq_of_beq hbe) h

theorem lookup_none_iff_not_mem_keys {α β : Type} [BEq α] [LawfulBEq α]
    (m : List (α × β)) (k : α) :
    m.lookup k = none ↔ k ∉ m.map Prod.fst := by
  rw [lookup_none_iff_keys]
  constructor
  · intro h hc
    rcases List.mem_map.mp hc with ⟨p, hp, he⟩
    exact h p hp he
  · intro h p hp he
    exact h (List.mem_map.mpr ⟨p, hp, he⟩)

theorem tableAt_append_left (h1 h2 : Heap) (t : Nat) (h : t < h1.length) :
    tableAt (h1 ++ h2) t = tableAt h1 t :=
  List.getD_append h1 h2 default t h

theorem tableAt_append_right (h1 h2 : Heap) (t : Nat) (h : h1.length ≤ t) :
    tableAt (h1 ++ h2) t = tableAt h2 (t - h1.length) :=
  List.getD_append_right h1 h2 default t h

theorem getD_map_lt {α β : Type} (l : List α) (f : α → β) (i : Nat) (d : β) (d0 : α)
    (h : i < l.length) :
    (l.map f).getD i d = f (l.getD i d0) := by
  induction l generalizing i with
  | nil => simp at h
  | cons a rest ih =>
      cases i with
      | zero => rfl
      | succ i2 =>
          simp only [List.map_cons, List.getD_cons_succ]
          exact ih i2 (Nat.lt_of_succ_lt_succ h)

theorem getD_map_refArg (args : List Arg) (L : Nat) (news : List Nat) (i : Nat) :
    (args.map (refArg L news)).getD i (.value "") =
      refArg L news (args.getD i (.value "")) := by
  induction args generalizing i with
  | nil => cases i <;> rfl
  | cons a rest ih =>
      cases i with
      | zero => rfl
      | succ i2 =>
          simp only [List.map_cons, List.getD_cons_succ]
          exact ih i2

theorem cloneArg_eq (st : CloneSt) (a : Arg) :
    cloneArg st a =
      (match argTable a with
       | none => (a, st)
       | some t => (retable a (tableClone st t).1, (tableClone st t).2)) := by
  cases a <;> rfl

theorem cloneArgsGo_closed (args : List Arg) (st : CloneSt) (heapO : Heap)
    (hext : ∃ ext, st.heap = heapO ++ ext)
    (hv : ∀ t ∈ usedTables args, t < heapO.length) :
    (cloneArgsGo st args).2.heap =
      st.heap ++ (newTables args (st.cloneMap.map Prod.fst)).map (fun t => tableAt heapO t) ∧
    (∀ u, (cloneArgsGo st args).2.cloneMap.lookup u =
      (match st.cloneMap.lookup u with
       | some c => some c
       | none =>
          if u ∈ newTables args (st.cloneMap.map Prod.fst) then
            some (st.heap.length + idxIn u (newTables args (st.cloneMap.map Prod.fst)))
          else none)) ∧
    ((cloneArgsGo st args).1 = args.map fun a =>
      match argTable a with
      | none => a
      | some t =>
          retable a (cloneRefExpr st (newTables args (st.cloneMap.map Prod.fst)) t)) := by
  induction args generalizing st with
  | nil =>
      refine ⟨by simp [cloneArgsGo, newTables], ?_, by simp [cloneArgsGo]⟩
      intro u
      cases hl : st.cloneMap.lookup u
      · simp [cloneArgsGo, newTables, hl]
      · simp [cloneArgsGo, hl]
  | cons a rest ih =>
      cases ha : argTable a with
      | none =>
          have hca : cloneArg st a = (a, st) := by rw [cloneArg_eq, ha]
          have hgo : cloneArgsGo st (a :: rest) =
              (a :: (cloneArgsGo st rest).1, (cloneArgsGo st rest).2) := by
            simp [cloneArgsGo, hca]
          obtain ⟨ih1, ih2, ih3⟩ := ih st hext
            (fun t hmem => hv t (by rw [usedTables_cons_none a rest ha]; exact hmem))
          rw [newTables_cons_none a rest _ ha]
          refine ⟨by rw [hgo]; exact ih1, fun u => by rw [hgo]; exact ih2 u, ?_⟩
          rw [hgo, ih3, List.map_cons]
          congr 1
          simp [ha]
      | some t =>
          cases hl : st.cloneMap.lookup t with
          | some c =>
              have htc : tableClone st t = (c, st) := by simp [tableClone, hl]
              have hca : cloneArg st a = (retable a c, st) := by
                rw [cloneArg_eq]
                simp [ha, htc]
              have hgo : cloneArgsGo st (a :: rest) =
                  (retable a c :: (cloneArgsGo st rest).1, (cloneArgsGo st rest).2) := by
                simp [cloneArgsGo, hca]
              have hknown : t ∈ st.cloneMap.map Prod.fst := by
                by_contra hc
                have h0 := (lookup_none_iff_not_mem_keys st.cloneMap t).mpr hc
                rw [h0] at hl
                cases hl
              have hnew : newTables (a :: rest) (st.cloneMap.map Prod.fst) =
                  newTables rest (st.cloneMap.map Prod.fst) := by
                rw [newTables_cons_some a rest _ t ha, if_pos hknown]
              obtain ⟨ih1, ih2, ih3⟩ := ih st hext
                (fun u hmem => hv u
                  (by rw [usedTables_cons_some a rest t ha]; exact List.mem_cons_of_mem _ hmem))
              rw [hnew]
              refine ⟨by rw [hgo]; exact ih1, fun u => by rw [hgo]; exact ih2 u, ?_⟩
              rw [hgo, ih3, List.map_cons]
              congr 1
              simp [ha, cloneRefExpr, hl]
          | none =>
              obtain ⟨ext, hexteq⟩ := hext
              have htmem : t ∈ usedTables (a :: rest) := by
                rw [usedTables_cons_some a rest t ha]
                exact List.mem_cons_self _ _
              have htlt : t < heapO.length := hv t htmem
              have htab : tableAt st.heap t = tableAt heapO t := by
                rw [hexteq]
                exact tableAt_append_left heapO ext t htlt
              have htc : tableClone st t =
                  (st.heap.length,
                    ⟨(t, st.heap.length) :: st.cloneMap, st.heap ++ [tableAt heapO t]⟩) := by
                simp [tableClone, hl, TableInfo.clone, htab]
              have hca : cloneArg st a =
                  (retable a st.heap.length,
                    ⟨(t, st.heap.length) :: st.cloneMap, st.heap ++ [tableAt heapO t]⟩) := by
                rw [cloneArg_eq]
                simp [ha, htc]
              have hgo : cloneArgsGo st (a :: rest) =
                  (retable a st.heap.length ::
                      (cloneArgsGo ⟨(t, st.heap.length) :: st.cloneMap,
                        st.heap ++ [tableAt heapO t]⟩ rest).1,
                    (cloneArgsGo ⟨(t, st.heap.length) :: st.cloneMap,
                      st.heap ++ [tableAt heapO t]⟩ rest).2) := by
                simp [cloneArgsGo, hca]
              have hnotk : t ∉ st.cloneMap.map Prod.fst :=
                (lookup_none_iff_not_mem_keys _ t).mp hl
              have hnew : newTables (a :: rest) (st.cloneMap.map Prod.fst) =
                  t :: newTables rest (t :: st.cloneMap.map Prod.fst) := by
                rw [newTables_cons_some a rest _ t ha, if_neg hnotk]
              set st2 : CloneSt :=
                ⟨(t, st.heap.length) :: st.cloneMap, st.heap ++ [tableAt heapO t]⟩ with hst2def
              have hk2 : st2.cloneMap = (t, st.heap.length) :: st.cloneMap := rfl
              have hh2 : st2.heap = st.heap ++ [tableAt heapO t] := rfl
              have hkeys : st2.cloneMap.map Prod.fst = t :: st.cloneMap.map Prod.fst := rfl
              have hlen2 : st2.heap.length = st.heap.length + 1 := by
                rw [hh2]
                simp
              obtain ⟨ih1, ih2, ih3⟩ := ih st2
                ⟨ext ++ [tableAt heapO t], by rw [hh2, hexteq, List.append_assoc]⟩
                (fun u hmem => hv u
                  (by rw [usedTables_cons_some a rest t ha]; exact List.mem_cons_of_mem _ hmem))
              rw [hkeys] at ih1 ih2 ih3
              rw [hnew]
              refine ⟨?_, ?_, ?_⟩
              · rw [hgo]
                rw [ih1, hh2]
                simp [List.append_assoc]
              · intro u
                rw [hgo]
                rw [ih2 u]
                by_cases hu : u = t
                · subst hu
                  have h1 : st2.cloneMap.lookup u = some st.heap.length := by
                    rw [hk2]
                    exact List.lookup_cons_self
                  rw [h1, hl]
                  simp [idxIn]
                · have h1 : st2.cloneMap.lookup u = st.cloneMap.lookup u := by
                    rw [hk2]
                    exact lookup_cons_ne u t _ _ hu
                  rw [h1]
                  cases hlu : st.cloneMap.lookup u with
                  | some c => rfl
                  | none =>
                      have hm : (u ∈ t :: newTables rest (t :: st.cloneMap.map Prod.fst)) ↔
                          (u ∈ newTables rest (t :: st.cloneMap.map Prod.fst)) := by
                        constructor
                        · intro h2
                          rcases List.mem_cons.mp h2 with he | h3
                          · exact absurd he hu
                          · exact h3
                        · exact List.mem_cons_of_mem _
                      by_cases hmem : u ∈ newTables rest (t :: st.cloneMap.map Prod.fst)
                      · rw [if_pos hmem, if_pos (hm.mpr hmem)]
                        have hidx : idxIn u (t :: newTables rest (t :: st.cloneMap.map Prod.fst)) =
                            idxIn u (newTables rest (t :: st.cloneMap.map Prod.fst)) + 1 := by
                          simp only [idxIn]
                          rw [if_neg (fun he => hu he.symm)]
                        rw [hidx, hlen2]
                        refine congrArg some ?_
                        omega
                      · rw [if_neg hmem, if_neg (fun hc => hmem (hm.mp hc))]
              · rw [hgo, ih3, List.map_cons, List.cons_eq_cons]
                refine ⟨?_, ?_⟩
                · simp [ha, cloneRefExpr, hl, idxIn]
                · refine List.map_congr_left ?_
                  intro b hb
                  cases hb2 : argTable b with
                  | none => simp [hb2]
                  | some u =>
                      simp only [hb2]
                      by_cases hu : u = t
                      · subst hu
                        have h1 : st2.cloneMap.lookup u = some st.heap.length := by
                          rw [hk2]
                          exact List.lookup_cons_self
                        simp [cloneRefExpr, h1, hl, idxIn]
                      · have h1 : st2.cloneMap.lookup u = st.cloneMap.lookup u := by
                          rw [hk2]
                          exact lookup_cons_ne u t _ _ hu
                        cases hlu : st.cloneMap.lookup u with
                        | some c => simp [cloneRefExpr, h1, hlu]
                        | none =>
                            have hidx : idxIn u
                                (t :: newTables rest (t :: st.cloneMap.map Prod.fst)) =
                                idxIn u (newTables rest (t :: st.cloneMap.map Prod.fst)) + 1 := by
                              simp only [idxIn]
                              rw [if_neg (fun he => hu he.symm)]
                            simp only [cloneRefExpr, h1, hlu, hidx, hlen2]
                            congr 1
                            omega

theorem cloneArgs_closed (args : List Arg) (heap : Heap)
    (hv : ∀ t ∈ usedTables args, t < heap.length) :
    (cloneArgs args heap).2 = heap ++ (cloneTables args).map (fun t => tableAt heap t) ∧
    (cloneArgs args heap).1 = args.map (refArg heap.length (cloneTables args)) := by
  obtain ⟨h1, _, h3⟩ := cloneArgsGo_closed args ⟨[], heap⟩ heap ⟨[], by simp⟩ hv
  refine ⟨h1, ?_⟩
  rw [show (cloneArgs args heap).1 = (cloneArgsGo ⟨[], heap⟩ args).1 from rfl, h3]
  refine List.map_congr_left ?_
  intro a _
  cases ha : argTable a with
  | none => simp [refArg, ha]
  | some t => simp [refArg, cloneRefExpr, ha, cloneTables]

/-- Claim C2: cloneArgs returns a new list of the same length in which
every directive is replaced by a clone re-pointed at a freshly
allocated table (an index at or beyond the end of the original heap)
whose content equals the original table, two directives receive the
same cloned table exactly when they referenced the same original table
(identity-keyed deduplication), every non-directive argument appears
unchanged at its original index, and the original heap entries are not
mutated (the original argument list is untouched because cloneArgs is a
pure function of it). -/
theorem cloneArgs_spec (args : List Arg) (heap : Heap)
    (hv : ∀ t ∈ usedTables args, t < heap.length) :
    ((cloneArgs args heap).1.length = args.length) ∧
    (∀ i, argTable (args.getD i (.value "")) = none →
      (cloneArgs args heap).1.getD i (.value "") = args.getD i (.value "")) ∧
    (∀ i t, argTable (args.getD i (.value "")) = some t →
      (cloneArgs args heap).1.getD i (.value "") =
        retable (args.getD i (.value "")) (cloneRefOf args heap t)) ∧
    (∀ t ∈ usedTables args, heap.length ≤ cloneRefOf args heap t ∧
      tableAt (cloneArgs args heap).2 (cloneRefOf args heap t) = tableAt heap t) ∧
    (∀ t ∈ usedTables args, ∀ u ∈ usedTables args,
      cloneRefOf args heap t = cloneRefOf args heap u → t = u) ∧
    ((cloneArgs args heap).2.take heap.length = heap) := by
  obtain ⟨hh, ho⟩ := cloneArgs_closed args heap hv
  have hmemtbl : ∀ t ∈ usedTables args, t ∈ cloneTables args := by
    intro t ht
    rcases usedTables_sub_newTables args [] t ht with h | h
    · exact h
    · cases h
  refine ⟨?_, ?_, ?_, ?_, ?_, ?_⟩
  · rw [ho, List.length_map]
  · intro i hi
    rw [ho, getD_map_refArg]
    unfold refArg
    rw [hi]
  · intro i t hi
    rw [ho, getD_map_refArg]
    unfold refArg cloneRefOf
    rw [hi]
  · intro t ht
    have hmem : t ∈ cloneTables args := hmemtbl t ht
    refine ⟨Nat.le_add_right _ _, ?_⟩
    rw [hh]
    unfold cloneRefOf
    rw [tableAt_append_right heap _ _ (Nat.le_add_right _ _), Nat.add_sub_cancel_left]
    rw [show tableAt ((cloneTables args).map fun t => tableAt heap t)
        (idxIn t (cloneTables args)) =
      ((cloneTables args).map fun t => tableAt heap t).getD (idxIn t (cloneTables args))
        default from rfl]
    rw [getD_map_lt _ _ _ _ 0 (idxIn_lt t _ hmem)]
    rw [getD_idxIn t _ hmem]
  · intro t ht u hu he
    unfold cloneRefOf at he
    exact idxIn_inj t u _ (hmemtbl t ht) (hmemtbl u hu) (Nat.add_left_cancel he)
  · rw [hh, List.take_left]

theorem cloneArgs_spec_witness :
    (cloneArgs argsIns heapU).1.length = 3 ∧
    tableAt (cloneArgs argsIns heapU).2 (cloneRefOf argsIns heapU 0) = usersTable ∧
    (cloneArgs argsIns heapU).2.take 1 = heapU ∧
    (cloneArgs argsIns heapU).1.getD 0 (.value "") =
      retable (argsIns.getD 0 (.value "")) (cloneRefOf argsIns heapU 0) := by
  have h := cloneArgs_spec argsIns heapU (by decide)
  refine ⟨h.1, ?_, h.2.2.2.2.2, h.2.2.1 0 0 (by decide)⟩
  exact (h.2.2.2.1 0 (by decide)).2

/-! Lemmas supporting the determinism theorem: the built SQL text
factors through a canonical form that depends on the heap only through
the contents of the cloned tables. -/

theorem insertRowf_command_eq (fmt : List FmtItem) (args : List Arg) (heap : Heap) :
    (InsertRowf fmt args heap).command = rowCommandText fmt args heap := rfl

theorem updateRowf_command_eq (fmt : List FmtItem) (args : List Arg) (heap : Heap) :
    (UpdateRowf fmt args heap).command = rowCommandText fmt args heap := rfl

theorem queryf_command_eq (fmt : List FmtItem) (args : List Arg) (heap : Heap) :
    (Queryf fmt args heap).command = rowCommandText fmt args heap := rfl

theorem execf_command_eq (fmt : List FmtItem) (args : List Arg) (heap : Heap) :
    (Execf fmt args heap).command = execCommandText fmt args heap := rfl

theorem retable_retable (a : Arg) (x y : Nat) : retable (retable a x) y = retable a y := by
  cases a <;> rfl

theorem argTable_retable_some (a : Arg) (t u : Nat) (h : argTable a = some u) :
    argTable (retable a t) = some t := by
  cases a
  · rfl
  · rfl
  · rfl
  · cases h

theorem argTable_mapArgTable (ρ : Nat → Nat) (a : Arg) :
    argTable (mapArgTable ρ a) = (argTable a).map ρ := by
  cases a <;> rfl

theorem usedTables_map_mapArgTable (ρ : Nat → Nat) (args : List Arg) :
    usedTables (args.map (mapArgTable ρ)) = (usedTables args).map ρ := by
  induction args with
  | nil => rfl
  | cons a rest ih =>
      cases ha : argTable a with
      | none =>
          have ha2 : argTable (mapArgTable ρ a) = none := by
            rw [argTable_mapArgTable, ha]
            rfl
          rw [List.map_cons, usedTables_cons_none _ _ ha2, usedTables_cons_none a rest ha, ih]
      | some t =>
          have ha2 : argTable (mapArgTable ρ a) = some (ρ t) := by
            rw [argTable_mapArgTable, ha]
            rfl
          rw [List.map_cons, usedTables_cons_some _ _ _ ha2, usedTables_cons_some a rest t ha,
            List.map_cons, ih]

theorem idxIn_map (ρ : Nat → Nat) (l : List Nat) (t : Nat)
    (hinj : ∀ u ∈ l, ρ u = ρ t → u = t) :
    idxIn (ρ t) (l.map ρ) = idxIn t l := by
  induction l with
  | nil => rfl
  | cons u rest ih =>
      simp only [List.map_cons, idxIn]
      by_cases hu : u = t
      · subst hu
        rw [if_pos rfl, if_pos rfl]
      · rw [if_neg (fun he => hu (hinj u (List.mem_cons_self _ _) he)), if_neg hu,
          ih (fun v hv => hinj v (List.mem_cons_of_mem _ hv))]

theorem refArg_collapse (ρ : Nat → Nat) (news : List Nat) (L : Nat) (a : Arg)
    (hinj : ∀ t, argTable a = some t → ∀ u ∈ news, ρ u = ρ t → u = t) :
    refArg L (news.map ρ) (mapArgTable ρ a) = refArg L news a := by
  cases ha : argTable a with
  | none =>
      have h1 : mapArgTable ρ a = a := by
        unfold mapArgTable
        rw [ha]
      rw [h1]
      unfold refArg
      rw [ha]
  | some t =>
      have h1 : mapArgTable ρ a = retable a (ρ t) := by
        unfold mapArgTable
        rw [ha]
      rw [h1]
      unfold refArg
      rw [argTable_retable_some a (ρ t) t ha, ha]
      show retable (retable a (ρ t)) (L + idxIn (ρ t) (news.map ρ)) =
        retable a (L + idxIn t news)
      rw [retable_retable, idxIn_map ρ news t (hinj t ha)]

theorem newTables_map (args : List Arg) (known : List Nat) (ρ : Nat → Nat)
    (hinj : ∀ x, (x ∈ usedTables args ∨ x ∈ known) →
      ∀ y, (y ∈ usedTables args ∨ y ∈ known) → ρ x = ρ y → x = y) :
    newTables (args.map (mapArgTable ρ)) (known.map ρ) = (newTables args known).map ρ := by
  induction args generalizing known with
  | nil => rfl
  | cons a rest ih =>
      cases ha : argTable a with
      | none =>
          have ha2 : argTable (mapArgTable ρ a) = none := by
            rw [argTable_mapArgTable, ha]
            rfl
          rw [List.map_cons, newTables_cons_none _ _ _ ha2, newTables_cons_none a rest known ha]
          refine ih known ?_
          intro x hx y hy he
          refine hinj x ?_ y ?_ he
          · rcases hx with hx | hx
            · exact Or.inl (by rw [usedTables_cons_none a rest ha]; exact hx)
            · exact Or.inr hx
          · rcases hy with hy | hy
            · exact Or.inl (by rw [usedTables_cons_none a rest ha]; exact hy)
            · exact Or.inr hy
      | some t =>
          have ha2 : argTable (mapArgTable ρ a) = some (ρ t) := by
            rw [argTable_mapArgTable, ha]
            rfl
          rw [List.map_cons, newTables_cons_some _ _ _ _ ha2, newTables_cons_some a rest known t ha]
          have htused : t ∈ usedTables (a :: rest) := by
            rw [usedTables_cons_some a rest t ha]
            exact List.mem_cons_self _ _
          have hsub : ∀ x, (x ∈ usedTables rest ∨ x ∈ known) →
              (x ∈ usedTables (a :: rest) ∨ x ∈ known) := by
            intro x hx
            rcases hx with hx | hx
            · exact Or.inl (by rw [usedTables_cons_some a rest t ha]; exact List.mem_cons_of_mem _ hx)
            · exact Or.inr hx
          have hmem_iff : (ρ t ∈ known.map ρ) ↔ (t ∈ known) := by
            constructor
            · intro h
              rcases List.mem_map.mp h with ⟨u, hu, he⟩
              have := hinj u (Or.inr hu) t (Or.inl htused) he
              rwa [← this]
            · exact fun h => List.mem_map.mpr ⟨t, h, rfl⟩
          by_cases hk : t ∈ known
          · rw [if_pos (hmem_iff.mpr hk), if_pos hk]
            exact ih known (fun x hx y hy he => hinj x (hsub x hx) y (hsub y hy) he)
          · rw [if_neg (fun hc => hk (hmem_iff.mp hc)), if_neg hk, List.map_cons]
            have hadapt : ∀ x, (x ∈ usedTables rest ∨ x ∈ t :: known) →
                (x ∈ usedTables (a :: rest) ∨ x ∈ known) := by
              intro x hx
              rcases hx with hx | hx
              · exact Or.inl
                  (by rw [usedTables_cons_some a rest t ha]; exact List.mem_cons_of_mem _ hx)
              · rcases List.mem_cons.mp hx with he | hx2
                · subst he
                  exact Or.inl htused
                · exact Or.inr hx2
            have h2 := ih (t :: known) (fun x hx y hy he => hinj x (hadapt x hx) y (hadapt y hy) he)
            rw [List.map_cons] at h2
            rw [h2]

theorem cloneTables_map (args : List Arg) (ρ : Nat → Nat)
    (hinj : ∀ t ∈ usedTables args, ∀ u ∈ usedTables args, ρ t = ρ u → t = u) :
    cloneTables (args.map (mapArgTable ρ)) = (cloneTables args).map ρ := by
  have h := newTables_map args [] ρ
    (fun x hx y hy he => by
      rcases hx with hx | hx
      · rcases hy with hy | hy
        · exact hinj x hx y hy he
        · cases hy
      · cases hx)
  exact h

theorem render_shift (hp C3 : Heap) (news : List Nat) (a : Arg) :
    render (hp ++ C3) (refArg hp.length news a) = render C3 (refArg 0 news a) := by
  cases a with
  | value s => rfl
  | tableName c t =>
      simp only [refArg, argTable, retable, render]
      rw [tableAt_append_right _ _ _ (Nat.le_add_right _ _), Nat.add_sub_cancel_left,
        Nat.zero_add]
  | columnList c t cols =>
      simp only [refArg, argTable, retable, render, colAt]
      rw [tableAt_append_right _ _ _ (Nat.le_add_right _ _), Nat.add_sub_cancel_left,
        Nat.zero_add]
  | placeholder t nm pos => rfl

theorem inputStep_append (acc : List (Nat × Nat)) (a : Arg) :
    inputStep acc a = acc ++ inputStep [] a := by
  cases a with
  | columnList c t cols =>
      by_cases hc : c.isInput
      · simp [inputStep, hc]
      · simp [inputStep, hc]
  | tableName c t => simp [inputStep]
  | placeholder t nm p => simp [inputStep]
  | value s => simp [inputStep]

theorem collectInputs_eq_foldl (args : List Arg) :
    collectInputs args = args.foldl inputStep [] := rfl

theorem foldl_inputStep_acc (args : List Arg) (acc : List (Nat × Nat)) :
    args.foldl inputStep acc = acc ++ args.foldl inputStep [] := by
  induction args generalizing acc with
  | nil => simp
  | cons a rest ih =>
      rw [List.foldl_cons, List.foldl_cons, ih, ih (inputStep [] a),
        inputStep_append acc a, List.append_assoc]

theorem collectInputs_cons (a : Arg) (rest : List Arg) :
    collectInputs (a :: rest) = inputStep [] a ++ collectInputs rest := by
  rw [collectInputs_eq_foldl, List.foldl_cons, foldl_inputStep_acc, ← collectInputs_eq_foldl]

theorem collectInputs_map_shift (args : List Arg) (L : Nat) (news : List Nat) :
    collectInputs (args.map (refArg L news)) =
      (collectInputs (args.map (refArg 0 news))).map (fun p => (L + p.1, p.2)) := by
  induction args with
  | nil => rfl
  | cons a rest ih =>
      rw [List.map_cons, List.map_cons, collectInputs_cons, collectInputs_cons, ih,
        List.map_append]
      congr 1
      cases a with
      | columnList c t cols =>
          simp only [refArg, argTable, retable, inputStep]
          by_cases hc : c.isInput
          · rw [if_pos hc, if_pos hc]
            simp [filtered, List.map_map, Nat.zero_add]
          · rw [if_neg hc, if_neg hc]
            rfl
      | tableName c t => rfl
      | placeholder t nm p => rfl
      | value s => rfl

theorem set_append_add {α : Type} (l1 l2 : List α) (k : Nat) (a : α) :
    (l1 ++ l2).set (l1.length + k) a = l1 ++ l2.set k a := by
  induction l1 with
  | nil => simp
  | cons x rest ih =>
      simp only [List.cons_append, List.length_cons]
      rw [show rest.length + 1 + k = (rest.length + k) + 1 from by omega]
      simp only [List.set]
      rw [ih]

theorem heapSetPosition_append (hp C : Heap) (k j n : Nat) :
    heapSetPosition (hp ++ C) (hp.length + k) j n = hp ++ heapSetPosition C k j n := by
  unfold heapSetPosition colAt
  rw [tableAt_append_right _ _ _ (Nat.le_add_right _ _), Nat.add_sub_cancel_left]
  exact set_append_add hp C k _

theorem applyPositions_shift (pat : List (Nat × Nat)) (hp C : Heap) (start : Nat) :
    applyPositions (hp ++ C) (pat.map (fun p => (hp.length + p.1, p.2))) start =
      hp ++ applyPositions C pat start := by
  induction pat generalizing C start with
  | nil => rfl
  | cons p rest ih =>
      rcases p with ⟨k, j⟩
      simp only [List.map_cons, applyPositions]
      rw [heapSetPosition_append]
      exact ih _ _

theorem rowCommandText_canon (fmt : List FmtItem) (args : List Arg) (heap : Heap)
    (hv : ∀ t ∈ usedTables args, t < heap.length) :
    rowCommandText fmt args heap =
      sprintf fmt (args.map fun a =>
        render (applyPositions ((cloneTables args).map fun t => tableAt heap t)
            (collectInputs (args.map (refArg 0 (cloneTables args)))) 1)
          (refArg 0 (cloneTables args) a)) := by
  obtain ⟨hh, ho⟩ := cloneArgs_closed args heap hv
  unfold rowCommandText
  rw [ho, hh, collectInputs_map_shift args heap.length (cloneTables args),
    applyPositions_shift, List.map_map]
  refine congrArg (sprintf fmt) (List.map_congr_left ?_)
  intro a _
  exact render_shift heap _ (cloneTables args) a

theorem phSetPosition_refArg (L : Nat) (news : List Nat) (a : Arg) (n : Nat) :
    phSetPosition (refArg L news a) n = refArg L news (phSetPosition a n) := by
  cases a <;> rfl

theorem collectExecInputsAux_map_refArg (args : List Arg) (L : Nat) (news : List Nat)
    (i : Nat) :
    collectExecInputsAux i (args.map (refArg L news)) =
      (collectExecInputsAux i (args.map (refArg 0 news))).map (shiftE L) := by
  induction args generalizing i with
  | nil => rfl
  | cons a rest ih =>
      cases a with
      | columnList c t cols =>
          simp only [List.map_cons, refArg, argTable, retable, collectExecInputsAux]
          rw [ih, List.map_append]
          congr 1
          by_cases hc : c.isInput
          · rw [if_pos hc, if_pos hc]
            simp [shiftE, List.map_map, Nat.zero_add]
          · rw [if_neg hc, if_neg hc]
            rfl
      | placeholder t nm p =>
          simp only [List.map_cons, refArg, argTable, retable, collectExecInputsAux]
          rw [ih]
          simp [shiftE]
      | tableName c t =>
          simp only [List.map_cons, refArg, argTable, retable, collectExecInputsAux]
          exact ih (i + 1)
      | value s =>
          simp only [List.map_cons, refArg, argTable, retable, collectExecInputsAux]
          exact ih (i + 1)

theorem applyExecPositions_shift (patE : List ExecInput) (hp C : Heap) (args0 : List Arg)
    (news : List Nat) (start : Nat) :
    applyExecPositions (hp ++ C) (args0.map (refArg hp.length news))
        (patE.map (shiftE hp.length)) start =
      (hp ++ (applyExecPositions C args0 patE start).1,
        (applyExecPositions C args0 patE start).2.map (refArg hp.length news)) := by
  induction patE generalizing C args0 start with
  | nil => rfl
  | cons e rest ih =>
      cases e with
      | col k j =>
          simp only [List.map_cons, shiftE, applyExecPositions]
          rw [heapSetPosition_append]
          exact ih _ _ _
      | ph idx =>
          simp only [List.map_cons, shiftE, applyExecPositions]
          rw [getD_map_refArg, phSetPosition_refArg, ← List.map_set]
          exact ih _ _ _

theorem execCommandText_canon (fmt : List FmtItem) (args : List Arg) (heap : Heap)
    (hv : ∀ t ∈ usedTables args, t < heap.length) :
    execCommandText fmt args heap =
      sprintf fmt ((applyExecPositions ((cloneTables args).map fun t => tableAt heap t) args
          (collectExecInputs (args.map (refArg 0 (cloneTables args)))) 1).2.map
        fun a =>
          render (applyExecPositions ((cloneTables args).map fun t => tableAt heap t) args
              (collectExecInputs (args.map (refArg 0 (cloneTables args)))) 1).1
            (refArg 0 (cloneTables args) a)) := by
  obtain ⟨hh, ho⟩ := cloneArgs_closed args heap hv
  unfold execCommandText
  rw [ho, hh,
    show collectExecInputs (args.map (refArg heap.length (cloneTables args))) =
      (collectExecInputs (args.map (refArg 0 (cloneTables args)))).map (shiftE heap.length)
      from collectExecInputsAux_map_refArg args heap.length (cloneTables args) 0,
    applyExecPositions_shift, List.map_map]
  refine congrArg (sprintf fmt) (List.map_congr_left ?_)
  intro a _
  exact render_shift heap _ (cloneTables args) a

theorem phSetPosition_mapArgTable (ρ : Nat → Nat) (a : Arg) (n : Nat) :
    phSetPosition (mapArgTable ρ a) n = mapArgTable ρ (phSetPosition a n) := by
  cases a <;> rfl

theorem getD_map_mapArgTable (args : List Arg) (ρ : Nat → Nat) (i : Nat) :
    (args.map (mapArgTable ρ)).getD i (.value "") =
      mapArgTable ρ (args.getD i (.value "")) := by
  induction args generalizing i with
  | nil => cases i <;> rfl
  | cons a rest ih =>
      cases i with
      | zero => rfl
      | succ i2 =>
          simp only [List.map_cons, List.getD_cons_succ]
          exact ih i2

theorem applyExecPositions_mapArgs (patE : List ExecInput) (C : Heap) (args : List Arg)
    (start : Nat) (ρ : Nat → Nat) :
    applyExecPositions C (args.map (mapArgTable ρ)) patE start =
      ((applyExecPositions C args patE start).1,
        (applyExecPositions C args patE start).2.map (mapArgTable ρ)) := by
  induction patE generalizing C args start with
  | nil => rfl
  | cons e rest ih =>
      cases e with
      | col k j =>
          simp only [applyExecPositions]
          exact ih _ _ _
      | ph idx =>
          simp only [applyExecPositions]
          rw [getD_map_mapArgTable, phSetPosition_mapArgTable, ← List.map_set]
          exact ih _ _ _

theorem argTable_phSetPosition (a : Arg) (n : Nat) :
    argTable (phSetPosition a n) = argTable a := by
  cases a <;> rfl

theorem usedTables_set_phSet (args : List Arg) (idx n : Nat) :
    usedTables (args.set idx (phSetPosition (args.getD idx (.value "")) n)) =
      usedTables args := by
  induction args generalizing idx with
  | nil => rfl
  | cons a rest ih =>
      cases idx with
      | zero =>
          simp only [List.getD_cons_zero, List.set]
          cases ha : argTable a with
          | none =>
              rw [usedTables_cons_none _ _ (by rw [argTable_phSetPosition, ha]),
                usedTables_cons_none a rest ha]
          | some t =>
              rw [usedTables_cons_some _ _ t (by rw [argTable_phSetPosition, ha]),
                usedTables_cons_some a rest t ha]
      | succ i2 =>
          simp only [List.getD_cons_succ, List.set]
          cases ha : argTable a with
          | none =>
              rw [usedTables_cons_none _ _ ha, usedTables_cons_none a rest ha]
              exact ih i2
          | some t =>
              rw [usedTables_cons_some _ _ t ha, usedTables_cons_some a rest t ha, ih i2]

theorem usedTables_applyExec (patE : List ExecInput) (C : Heap) (args : List Arg)
    (start : Nat) :
    usedTables ((applyExecPositions C args patE start).2) = usedTables args := by
  induction patE generalizing C args start with
  | nil => rfl
  | cons e rest ih =>
      cases e with
      | col k j =>
          simp only [applyExecPositions]
          exact ih _ _ _
      | ph idx =>
          simp only [applyExecPositions]
          rw [ih]
          exact usedTables_set_phSet args idx start

theorem map_refArg_collapse (args : List Arg) (ρ : Nat → Nat) (news : List Nat) (L : Nat)
    (hinj : ∀ t ∈ usedTables args, ∀ u ∈ news, ρ u = ρ t → u = t) :
    (args.map (mapArgTable ρ)).map (refArg L (news.map ρ)) = args.map (refArg L news) := by
  rw [List.map_map]
  refine List.map_congr_left ?_
  intro a ha
  refine refArg_collapse ρ news L a ?_
  intro t hta u hu he
  exact hinj t (List.mem_filterMap.mpr ⟨a, ha, hta⟩) u hu he

/-- Claim C9: rebuilding with any of the four builders from the same
format string and equivalent directive values (the same argument list
with the table references renamed injectively to tables of equal
content, preserving the sharing pattern) produces byte-identical SQL
text; placeholder positions are assigned identically because the whole
build factors through a canonical form independent of the table
identities. -/
theorem builders_deterministic (ρ : Nat → Nat) (fmt : List FmtItem) (args : List Arg)
    (heap1 heap2 : Heap)
    (hv1 : ∀ t ∈ usedTables args, t < heap1.length)
    (hv2 : ∀ t ∈ usedTables args, ρ t < heap2.length)
    (hinj : ∀ t ∈ usedTables args, ∀ u ∈ usedTables args, ρ t = ρ u → t = u)
    (hag : ∀ t ∈ usedTables args, tableAt heap2 (ρ t) = tableAt heap1 t) :
    (InsertRowf fmt args heap1).command =
      (InsertRowf fmt (args.map (mapArgTable ρ)) heap2).command ∧
    (UpdateRowf fmt args heap1).command =
      (UpdateRowf fmt (args.map (mapArgTable ρ)) heap2).command ∧
    (Execf fmt args heap1).command =
      (Execf fmt (args.map (mapArgTable ρ)) heap2).command ∧
    (Queryf fmt args heap1).command =
      (Queryf fmt (args.map (mapArgTable ρ)) heap2).command := by
  have hv2x : ∀ t ∈ usedTables (args.map (mapArgTable ρ)), t < heap2.length := by
    rw [usedTables_map_mapArgTable]
    intro t ht
    rcases List.mem_map.mp ht with ⟨u, hu, he⟩
    rw [← he]
    exact hv2 u hu
  have hnews_sub : ∀ u ∈ cloneTables args, u ∈ usedTables args :=
    fun u hu => (mem_newTables args [] u hu).1
  have hct : cloneTables (args.map (mapArgTable ρ)) = (cloneTables args).map ρ :=
    cloneTables_map args ρ hinj
  have hC : ((cloneTables args).map ρ).map (fun t => tableAt heap2 t) =
      (cloneTables args).map (fun t => tableAt heap1 t) := by
    rw [List.map_map]
    refine List.map_congr_left ?_
    intro u hu
    exact hag u (hnews_sub u hu)
  have hinj2 : ∀ t ∈ usedTables args, ∀ u ∈ cloneTables args, ρ u = ρ t → u = t :=
    fun t ht u hu he => hinj u (hnews_sub u hu) t ht he
  have hcollapse0 : (args.map (mapArgTable ρ)).map (refArg 0 ((cloneTables args).map ρ)) =
      args.map (refArg 0 (cloneTables args)) :=
    map_refArg_collapse args ρ (cloneTables args) 0 hinj2
  have hrow : rowCommandText fmt args heap1 =
      rowCommandText fmt (args.map (mapArgTable ρ)) heap2 := by
    rw [rowCommandText_canon fmt args heap1 hv1,
      rowCommandText_canon fmt (args.map (mapArgTable ρ)) heap2 hv2x, hct, hC, hcollapse0]
    refine congrArg (sprintf fmt) ?_
    rw [List.map_map]
    refine List.map_congr_left ?_
    intro a ha
    have hc := refArg_collapse ρ (cloneTables args) 0 a
      (fun t hta u hu he => hinj2 t (List.mem_filterMap.mpr ⟨a, ha, hta⟩) u hu he)
    show render _ (refArg 0 (cloneTables args) a) =
      render _ (refArg 0 ((cloneTables args).map ρ) (mapArgTable ρ a))
    rw [hc]
  have hexec : execCommandText fmt args heap1 =
      execCommandText fmt (args.map (mapArgTable ρ)) heap2 := by
    rw [execCommandText_canon fmt args heap1 hv1,
      execCommandText_canon fmt (args.map (mapArgTable ρ)) heap2 hv2x, hct, hC, hcollapse0,
      applyExecPositions_mapArgs]
    refine congrArg (sprintf fmt) ?_
    rw [List.map_map]
    refine List.map_congr_left ?_
    intro a ha
    have hmem : ∀ t, argTable a = some t → t ∈ usedTables args := by
      intro t hta
      have h1 : t ∈ usedTables
          ((applyExecPositions ((cloneTables args).map fun t => tableAt heap1 t) args
            (collectExecInputs (args.map (refArg 0 (cloneTables args)))) 1).2) :=
        List.mem_filterMap.mpr ⟨a, ha, hta⟩
      rwa [usedTables_applyExec] at h1
    have hc := refArg_collapse ρ (cloneTables args) 0 a
      (fun t hta u hu he => hinj2 t (hmem t hta) u hu he)
    show render _ (refArg 0 (cloneTables args) a) =
      render _ (refArg 0 ((cloneTables args).map ρ) (mapArgTable ρ a))
    rw [hc]
  exact ⟨hrow, hrow, hexec, hrow⟩

theorem builders_deterministic_witness :
    (InsertRowf fmtIns argsIns heapU).command =
      (InsertRowf fmtIns (argsIns.map (mapArgTable (fun t => t + 1))) heap2W).command ∧
    (Execf fmtExec argsExec heapU).command =
      (Execf fmtExec (argsExec.map (mapArgTable (fun t => t + 1))) heap2W).command := by
  refine ⟨?_, ?_⟩
  · exact (builders_deterministic (fun t => t + 1) fmtIns argsIns heapU heap2W
      (by decide) (by decide) (by decide) (by decide)).1
  · exact (builders_deterministic (fun t => t + 1) fmtExec argsExec heapU heap2W
      (by decide) (by decide) (by decide) (by decide)).2.2.1

end Sqlf
